import Mathlib

/-! # rssaws: the region and service classifiers and the Slack feed writer

A shallow embedding of `collectByRegion`, `collectByService` and
`writeSlackFeed` of `main.go`, together with the functions of the Go standard
library they call (`strings.Index`, `strings.LastIndex`, `strings.Replace`,
`strings.TrimSpace`, `path.Base`, `path.Ext`, `sort.Strings`).

Modelling conventions.

* A Go string is a list of characters (`Str`). The strings handled by the
  program are valid UTF-8, for which the byte-wise substring search, removal
  and comparison of Go agree with the same operations on code points.
* A Go map is an association list with pairwise distinct keys (`GoMap`).
  Reading a missing key gives the zero value, as in Go.
* Go leaves the order of a `range` over a map unspecified, and it may differ
  from one loop to the next. Every `range` of the source therefore walks its
  map in an order chosen by a parameter (a `RegionWalk`, a `ServiceWalk`, a
  key shuffle), and the theorems hold for all of them.
* `writeSlackFeed` is modelled by the sequence of strings handed to
  `WriteString`, the writes being assumed to succeed.
-/

namespace Rssaws

/-- A Go string, as the list of its characters. -/
abbrev Str := List Char

/-! ## Go standard library -/

/-- Go: `strings.Index(s, substr)`, the index of the first occurrence of `substr`
in `s`, or `-1`. -/
def Index : Str → Str → Int
  | [], substr => if substr = [] then 0 else -1
  | c :: s, substr =>
    if substr.isPrefixOf (c :: s) then 0
    else if Index s substr < 0 then -1 else Index s substr + 1

/-- Go: `strings.LastIndex(s, substr)`, the index of the last occurrence of
`substr` in `s`, or `-1`. -/
def LastIndex : Str → Str → Int
  | [], substr => if substr = [] then 0 else -1
  | c :: s, substr =>
    if 0 ≤ LastIndex s substr then LastIndex s substr + 1
    else if substr.isPrefixOf (c :: s) then 0 else -1

/-- The scan of `strings.Replace` for a non-empty `old`: the leftmost occurrence
is replaced and the search resumes behind it. `skip` counts the characters of
the occurrence just replaced that are still to be passed over. -/
def replaceScan (old new : Str) : Nat → Str → Str
  | _, [] => []
  | skip + 1, _ :: s => replaceScan old new skip s
  | 0, c :: s =>
    if old.isPrefixOf (c :: s) then new ++ replaceScan old new (old.length - 1) s
    else c :: replaceScan old new 0 s

/-- Go: `strings.Replace(s, old, new, -1)`, all non-overlapping occurrences of
`old` replaced by `new`. An empty `old` matches before every character and at
the end of the string. -/
def Replace (s old new : Str) : Str :=
  if old = new then s
  else if old = [] then new ++ s.flatMap (fun c => c :: new)
  else replaceScan old new 0 s

/-- Go: `unicode.IsSpace`. -/
def isSpace (c : Char) : Bool :=
  c = '\t' || c = '\n' || c.toNat = 0x0B || c.toNat = 0x0C || c = '\r' || c = ' ' ||
  c.toNat = 0x85 || c.toNat = 0xA0 || c.toNat = 0x1680 ||
  (0x2000 ≤ c.toNat && c.toNat ≤ 0x200A) ||
  c.toNat = 0x2028 || c.toNat = 0x2029 || c.toNat = 0x202F || c.toNat = 0x205F ||
  c.toNat = 0x3000

/-- Go: `strings.TrimSpace(s)`, leading and trailing white space removed. -/
def TrimSpace (s : Str) : Str :=
  ((s.dropWhile isSpace).reverse.dropWhile isSpace).reverse

/-- Go: `path.Base(path)`, the last element of the path. -/
def Base (path : Str) : Str :=
  if path = [] then ".".toList
  else
    -- Strip trailing slashes.
    let path := (path.reverse.dropWhile (fun c => c = '/')).reverse
    -- Find the last element.
    let path := if 0 ≤ LastIndex path "/".toList
      then path.drop (LastIndex path "/".toList + 1).toNat else path
    -- If empty now, it had only slashes.
    if path = [] then "/".toList else path

/-- The loop of `path.Ext`, which reads the path from its end: `rev` holds the
characters not yet read, last one first, and `tail` those already passed. -/
def extScan : Str → Str → Str
  | [], _ => []
  | c :: rev, tail =>
    if c = '/' then [] else if c = '.' then c :: tail else extScan rev (c :: tail)

/-- Go: `path.Ext(path)`, the suffix starting at the last dot of the last
element of the path, or the empty string. -/
def Ext (path : Str) : Str := extScan path.reverse []

/-- Go: the comparison `a < b` of two strings. -/
def less : Str → Str → Bool
  | _, [] => false
  | [], _ :: _ => true
  | a :: s, b :: t => if a < b then true else if b < a then false else less s t

/-- Go: `sort.Strings(x)`, the strings in increasing order. -/
def sortStrings (x : List Str) : List Str :=
  x.insertionSort (fun a b => less b a = false)

/-! ## Go maps -/

/-- A Go map with string keys: its entries, with pairwise distinct keys. -/
abbrev GoMap (β : Type) := List (Str × β)

namespace GoMap

variable {β : Type}

/-- The keys of the map. -/
def keys (m : GoMap β) : List Str := m.map Prod.fst

/-- Go: `v, ok := m[k]`. -/
def get (m : GoMap β) (k : Str) : Option β := m.lookup k

/-- Go: `m[k] = v`. -/
def set : GoMap β → Str → β → GoMap β
  | [], k, v => [(k, v)]
  | (k0, v0) :: m, k, v => if k0 = k then (k, v) :: m else (k0, v0) :: set m k v

/-- Go: `m[k]` for a map of slices, `nil` when the key is missing. -/
def list (m : GoMap (List Str)) (k : Str) : List Str := (m.get k).getD []

/-- Go: `m[k] = append(m[k], u)`. -/
def push (m : GoMap (List Str)) (k u : Str) : GoMap (List Str) :=
  m.set k (m.list k ++ [u])

end GoMap

/-! ## The classifiers -/

/-- The sentinel region of `collectByRegion` and `collectByService`. -/
def GLOBAL : Str := "GLOBAL".toList

/-- The orders in which `collectByRegion` walks its maps. -/
structure RegionWalk where
  /-- order of `range regionSet` -/
  regions : List Str → List Str
  /-- order of the `range urlMap` run for a region key -/
  urls : Str → GoMap Str → GoMap Str
  /-- order of the closing `range urlMap` -/
  rest : GoMap Str → GoMap Str

/-- Every walk visits each entry of its map once. -/
def RegionWalk.Valid (w : RegionWalk) : Prop :=
  (∀ l, (w.regions l).Perm l) ∧ (∀ r m, (w.urls r m).Perm m) ∧ (∀ m, (w.rest m).Perm m)

/-- The loop of `collectByRegion` over the URLs, for one region key. The state
is `(regionResults, usedKeys)`. -/
def regionStep (regionKey : Str) (st : GoMap (List Str) × List Str) (e : Str × Str) :
    GoMap (List Str) × List Str :=
  if LastIndex e.1 regionKey < 0 then st
  else (st.1.push regionKey e.1, e.1 :: st.2)

/-- The first loop of `collectByRegion` (main.go 219-236): the state
`(regionResults, usedKeys)` after all regions are scanned. -/
def regionLoop (urlMap : GoMap Str) (regionSet : List Str) (w : RegionWalk) :
    GoMap (List Str) × List Str :=
  (w.regions regionSet).foldl
    (fun st regionKey =>
      if GLOBAL = regionKey then st
      else (w.urls regionKey urlMap).foldl (regionStep regionKey) st)
    (([] : GoMap (List Str)), ([] : List Str))

/-- Source: `collectByRegion` (main.go 213-253). -/
def collectByRegion (urlMap : GoMap Str) (regionSet : List Str) (w : RegionWalk) :
    GoMap (List Str) :=
  -- Group by region
  let st := regionLoop urlMap regionSet w
  -- Collect regionless global services
  (w.rest urlMap).foldl
    (fun regionResults e =>
      if e.1 ∈ st.2 then regionResults else regionResults.push GLOBAL e.1)
    st.1

/-- The orders in which `collectByService` walks its maps. -/
structure ServiceWalk where
  /-- order of the first `range urlMap` -/
  urls : GoMap Str → GoMap Str
  /-- order of the `range regionSet` run for a URL -/
  regions : Str → List Str → List Str
  /-- order of the second `range urlMap` -/
  rest : GoMap Str → GoMap Str

/-- Every walk visits each entry of its map once. -/
def ServiceWalk.Valid (w : ServiceWalk) : Prop :=
  (∀ m, (w.urls m).Perm m) ∧ (∀ u l, (w.regions u l).Perm l) ∧ (∀ m, (w.rest m).Perm m)

/-- The three maps `collectByService` builds. -/
structure ServiceState where
  serviceMap : GoMap Str
  usedKeys : List Str
  serviceResults : GoMap (List Str)

/-- The stem `urlItem` of `collectByService` (main.go 265-271 and 301-304). -/
def urlItem (urlKey : Str) : Str :=
  let base := Base urlKey
  let ext := Ext urlKey
  Replace base ext []

/-- The loop of `collectByService` over the regions, for one URL. -/
def serviceStep (urlKey urlVal : Str) (st : ServiceState) (regionKey : Str) : ServiceState :=
  if regionKey = GLOBAL then st
  else
    let regionItem := Replace (urlItem urlKey) regionKey []
    if regionItem = urlItem urlKey then st
    else
      { serviceMap := st.serviceMap.set regionItem urlVal
        usedKeys := urlKey :: st.usedKeys
        serviceResults := st.serviceResults.push regionItem urlKey }

/-- The second loop of `collectByService`, over the URLs no region claimed. -/
def serviceRest (st : ServiceState) (e : Str × Str) : ServiceState :=
  if e.1 ∈ st.usedKeys then st
  else if urlItem e.1 = [] then st
  else
    { serviceMap := st.serviceMap.set (urlItem e.1) e.2
      usedKeys := st.usedKeys
      serviceResults := st.serviceResults.push (urlItem e.1) e.1 }

/-- One round of the first loop of `collectByService` (main.go 262-292), for
the entry `e` of the URL map. -/
def serviceScan (regionSet : List Str) (w : ServiceWalk) (st : ServiceState) (e : Str × Str) :
    ServiceState :=
  if urlItem e.1 = [] then st
  else (w.regions e.1 regionSet).foldl (serviceStep e.1 e.2) st

/-- The first loop of `collectByService` (main.go 262-292). -/
def serviceLoop (urlMap : GoMap Str) (regionSet : List Str) (w : ServiceWalk) : ServiceState :=
  (w.urls urlMap).foldl (serviceScan regionSet w) (ServiceState.mk [] [] [])

/-- The state of `collectByService` before it returns. -/
def serviceRun (urlMap : GoMap Str) (regionSet : List Str) (w : ServiceWalk) : ServiceState :=
  -- Group by service
  let st := serviceLoop urlMap regionSet w
  (w.rest urlMap).foldl serviceRest st

/-- Source: `collectByService` (main.go 255-318), which returns
`(serviceResults, serviceMap)`. -/
def collectByService (urlMap : GoMap Str) (regionSet : List Str) (w : ServiceWalk) :
    GoMap (List Str) × GoMap Str :=
  let st := serviceRun urlMap regionSet w
  (st.serviceResults, st.serviceMap)

/-! ## The feed writer -/

/-- The header text made from a display name (main.go 371-378): the name is
cut before its first `(` and trimmed. -/
def nameText (name : Str) : Str :=
  -- Remove parenthesized strings
  let text :=
    if Index name "(".toList > -1 then name.take (Index name "(".toList).toNat
    else name
  TrimSpace text

/-- The header text of a block (main.go 365-380). `names` is `none` for a `nil`
map. -/
def headerText (val : Str) (names : Option (GoMap Str)) : Str :=
  let text := TrimSpace val
  match names with
  | none => text
  | some nm =>
    if 0 < nm.length then
      match nm.get val with
      | none => text
      | some name => nameText name
    else text

/-- The line written for one FeedURL, in the format of the Slack feed app
(main.go 394). -/
def feedLine (item : Str) : Str :=
  "/feed subscribe ".toList ++ item ++ "\n".toList

/-- The strings one round of the loop of `writeSlackFeed` writes (main.go
382-406): the block of key `val`, whose list is `urls`. -/
def writeBlock (val : Str) (urls : List Str) (names : Option (GoMap Str)) : List Str :=
  -- Write comment header
  ["# ".toList ++ headerText val names ++ "\n".toList]
    -- Sort by url
    ++ (sortStrings urls).map feedLine
    -- Write the end of this block
    ++ ["# \n".toList]

/-- The slice `sortedKeys` of `writeSlackFeed` (main.go 351-356): `make` gives
it `len(output)` empty strings, the keys are appended in the order `walk`, and
the whole is sorted. -/
def sortedKeys (output : GoMap (List Str)) (walk : List Str → List Str) : List Str :=
  sortStrings (List.replicate output.length [] ++ walk output.keys)

/-- The keys for which `writeSlackFeed` writes a block, in the order of
writing (main.go 360-364). -/
def blockKeys (output : GoMap (List Str)) (walk : List Str → List Str) : List Str :=
  (sortedKeys output walk).filter (fun val => (output.get val).isSome)

/-- Source: `writeSlackFeed` (main.go 338-411), as the strings written. -/
def writeSlackFeed (output : GoMap (List Str)) (names : Option (GoMap Str))
    (walk : List Str → List Str) : List Str :=
  (sortedKeys output walk).flatMap (fun val =>
    match output.get val with
    | none => []
    | some urls => writeBlock val urls names)

/-! ## Proof devices -/

/-- The map after a sequence of appends `m[k] = append(m[k], u)`, one for each
pair `(k, u)` of `evs`. -/
def pushAll (m : GoMap (List Str)) (evs : List (Str × Str)) : GoMap (List Str) :=
  evs.foldl (fun m e => m.push e.1 e.2) m

/-- The appends of the first loop of `collectByRegion` when the regions are
scanned in the order `rs`, as pairs of a region key and a URL. -/
def regionEvents (urlMap : GoMap Str) (w : RegionWalk) (rs : List Str) : List (Str × Str) :=
  rs.flatMap (fun r =>
    if GLOBAL = r then []
    else ((w.urls r urlMap).filter (fun e => ¬ LastIndex e.1 r < 0)).map (fun e => (r, e.1)))

/-- The appends of the second loop of `collectByRegion`. -/
def globalEvents (urlMap : GoMap Str) (regionSet : List Str) (w : RegionWalk) :
    List (Str × Str) :=
  ((w.rest urlMap).filter (fun e => ¬ e.1 ∈ (regionLoop urlMap regionSet w).2)).map
    (fun e => (GLOBAL, e.1))

/-- The appends of the first loop of `collectByService` for one entry of the
URL map, as pairs of a service key and a URL. -/
def stemEvents (regionSet : List Str) (w : ServiceWalk) (e : Str × Str) : List (Str × Str) :=
  if urlItem e.1 = [] then []
  else ((w.regions e.1 regionSet).filter
      (fun r => ¬ r = GLOBAL ∧ ¬ Replace (urlItem e.1) r [] = urlItem e.1)).map
    (fun r => (Replace (urlItem e.1) r [], e.1))

/-- The appends of the first loop of `collectByService` when the URL map is
walked in the order `l`. -/
def serviceEvents (regionSet : List Str) (w : ServiceWalk) (l : GoMap Str) :
    List (Str × Str) :=
  l.flatMap (stemEvents regionSet w)

/-- The appends of the second loop of `collectByService`. -/
def restEvents (urlMap : GoMap Str) (regionSet : List Str) (w : ServiceWalk) :
    List (Str × Str) :=
  ((w.rest urlMap).filter
      (fun e => ¬ e.1 ∈ (serviceLoop urlMap regionSet w).usedKeys ∧ ¬ urlItem e.1 = [])).map
    (fun e => (urlItem e.1, e.1))

/-- The two maps of `collectByService` agree: they have the same keys, and the
display name of a key is the name the URL map gives to a URL listed under it. -/
def ServiceInv (urlMap : GoMap Str) (st : ServiceState) : Prop :=
  (∀ k, k ∈ GoMap.keys st.serviceMap ↔ k ∈ GoMap.keys st.serviceResults)
  ∧ (∀ k name, GoMap.get st.serviceMap k = some name →
      ∃ u, u ∈ GoMap.list st.serviceResults k ∧ List.Mem (u, name) urlMap)

/-- The walk that visits every map in the order of its entries. -/
def RegionWalk.plain : RegionWalk := ⟨fun l => l, fun _ m => m, fun m => m⟩

/-- The walk that visits every map in the order of its entries. -/
def ServiceWalk.plain : ServiceWalk := ⟨fun m => m, fun _ l => l, fun m => m⟩

/-! ## Example data -/

/-- The feed of a regional service. -/
def ec2Feed : Str := "https://status.example.com/rss/ec2-us-east-1.rss".toList

/-- The feed of a service without a region. -/
def globalFeed : Str := "https://status.example.com/rss/globalservice.rss".toList

/-- The region `us-east-1`. -/
def usEast1 : Str := "us-east-1".toList

/-- A URLIndex with one regional feed. -/
def ec2Index : GoMap Str := [(ec2Feed, "EC2 (N. Virginia)".toList)]

/-- A URLIndex with one feed that names no region. -/
def globalIndex : GoMap Str := [(globalFeed, "Global Service".toList)]

/-- The RegionSet of the examples. -/
def exampleRegions : List Str := [usEast1, GLOBAL]

/-- The service key of the regional feed. -/
def ec2Key : Str := "ec2-".toList

/-- The display name of the header example. -/
def vpceName : Str := "VPCE PrivateLink (Singapore)".toList

/-- A feed whose file name repeats its extension. -/
def doubledExtFeed : Str := "https://status.example.com/rss/a.rss.rss".toList

/-- A feed whose stem is the name of a region. -/
def regionNamedFeed : Str := "https://status.example.com/rss/us-east-1.rss".toList

/-- A URLIndex whose only feed has the name of a region as its stem. -/
def regionNamedIndex : GoMap Str := [(regionNamedFeed, "US East".toList)]

/-- A feed whose stem `aba` two regions reduce to the same key. -/
def abaFeed : Str := "https://status.example.com/rss/aba.rss".toList

/-- A URLIndex with the feed `aba.rss`. -/
def abaIndex : GoMap Str := [(abaFeed, "ABA".toList)]

/-- A RegionSet with the two regions `ab` and `ba`. -/
def abaRegions : List Str := ["ab".toList, "ba".toList, GLOBAL]

/-- The region `us-west-2`. -/
def usWest2 : Str := "us-west-2".toList

/-- The feed of the regional service in a second region. -/
def ec2WestFeed : Str := "https://status.example.com/rss/ec2-us-west-2.rss".toList

/-- The feed of a second regional service. -/
def s3Feed : Str := "https://status.example.com/rss/s3-us-east-1.rss".toList

/-- A URLIndex with two services, two regions and a feed that names no region. -/
def fleetIndex : GoMap Str :=
  [(ec2WestFeed, "Amazon EC2 (Oregon)".toList), (ec2Feed, "Amazon EC2 (N. Virginia)".toList),
   (s3Feed, "Amazon S3 (N. Virginia)".toList), (globalFeed, "Global Service".toList)]

/-- A RegionSet with two regions. -/
def fleetRegions : List Str := [usEast1, usWest2, GLOBAL]

/-- The service partition of `fleetIndex`. -/
def fleetParts : GoMap (List Str) :=
  [(ec2Key, [ec2WestFeed, ec2Feed]), ("s3-".toList, [s3Feed]),
   ("globalservice".toList, [globalFeed])]

/-- Display names for the keys of `fleetParts`. -/
def fleetNames : GoMap Str :=
  [(ec2Key, "Amazon EC2 (N. Virginia)".toList), ("s3-".toList, "Amazon S3 (N. Virginia)".toList),
   ("globalservice".toList, "Global Service".toList)]

/-- A display name with a line break inside. -/
def brokenName : Str := "Amazon\nEC2".toList

/-! ## Lemmas on the library functions -/

theorem isPrefixOf_iff (a b : Str) : a.isPrefixOf b = true ↔ a <+: b := by
  simp

theorem lastIndex_nonneg_iff (s substr : Str) : 0 ≤ LastIndex s substr ↔ substr <:+: s := by
  induction s with
  | nil =>
    by_cases h : substr = [] <;> simp [LastIndex, h]
  | cons c s ih =>
    rw [LastIndex, List.infix_cons_iff]
    by_cases h1 : 0 ≤ LastIndex s substr
    · simp only [h1, if_true]
      constructor
      · intro _; exact Or.inr (ih.1 h1)
      · intro _; omega
    · have h2 : ¬ substr <:+: s := fun h => h1 (ih.2 h)
      simp only [h1, if_false]
      by_cases h3 : substr.isPrefixOf (c :: s) = true
      · simp only [h3, if_true]
        constructor
        · intro _; exact Or.inl ((isPrefixOf_iff _ _).1 h3)
        · intro _; omega
      · simp only [h3]
        constructor
        · intro h; simp at h
        · rintro (h | h)
          · exact absurd ((isPrefixOf_iff _ _).2 h) h3
          · exact absurd h h2

theorem lastIndex_neg_iff (s substr : Str) : LastIndex s substr < 0 ↔ ¬ substr <:+: s := by
  rw [← lastIndex_nonneg_iff]; omega

/-! ## Lemmas on Go maps -/

namespace GoMap

variable {β : Type}

theorem get_nil (k : Str) : GoMap.get ([] : GoMap β) k = none := rfl

theorem get_cons (m : GoMap β) (k0 : Str) (v0 : β) (k : Str) :
    GoMap.get ((k0, v0) :: m) k = if k = k0 then some v0 else m.get k := by
  show List.lookup k ((k0, v0) :: m) = if k = k0 then some v0 else List.lookup k m
  rw [List.lookup_cons]
  by_cases h : k = k0
  · rw [if_pos h, beq_iff_eq.2 h]
  · rw [if_neg h, beq_eq_false_iff_ne.2 h]

theorem keys_nil : GoMap.keys ([] : GoMap β) = [] := rfl

theorem keys_cons (m : GoMap β) (k0 : Str) (v0 : β) :
    GoMap.keys ((k0, v0) :: m) = k0 :: m.keys := rfl

theorem set_nil (k : Str) (v : β) : GoMap.set ([] : GoMap β) k v = [(k, v)] := rfl

theorem set_cons (m : GoMap β) (k0 : Str) (v0 : β) (k : Str) (v : β) :
    GoMap.set ((k0, v0) :: m) k v = if k0 = k then (k, v) :: m else (k0, v0) :: m.set k v := rfl

theorem get_set (m : GoMap β) (k k1 : Str) (v : β) :
    (m.set k v).get k1 = if k1 = k then some v else m.get k1 := by
  induction m with
  | nil => rw [set_nil, get_cons, get_nil]
  | cons e m ih =>
    obtain ⟨k0, v0⟩ := e
    rw [set_cons]
    by_cases h0 : k0 = k
    · subst h0
      rw [if_pos rfl, get_cons, get_cons]
      by_cases h : k1 = k0
      · rw [if_pos h, if_pos h]
      · rw [if_neg h, if_neg h, if_neg h]
    · rw [if_neg h0, get_cons, get_cons, ih]
      by_cases h : k1 = k0
      · have h2 : ¬ k1 = k := fun h3 => h0 (h.symm.trans h3)
        rw [if_pos h, if_pos h, if_neg h2]
      · rw [if_neg h, if_neg h]

theorem mem_keys_set (m : GoMap β) (k k1 : Str) (v : β) :
    k1 ∈ (m.set k v).keys ↔ k1 = k ∨ k1 ∈ m.keys := by
  induction m with
  | nil => rw [set_nil, keys_cons, keys_nil]; simp
  | cons e m ih =>
    obtain ⟨k0, v0⟩ := e
    rw [set_cons]
    by_cases h0 : k0 = k
    · subst h0
      rw [if_pos rfl, keys_cons, keys_cons]
      simp
    · rw [if_neg h0, keys_cons, keys_cons, List.mem_cons, List.mem_cons, ih]
      tauto

theorem get_eq_none_iff (m : GoMap β) (k : Str) : m.get k = none ↔ k ∉ m.keys := by
  induction m with
  | nil => rw [get_nil, keys_nil]; simp
  | cons e m ih =>
    obtain ⟨k0, v0⟩ := e
    rw [get_cons, keys_cons, List.mem_cons]
    by_cases h : k = k0
    · rw [if_pos h]; simp [h]
    · rw [if_neg h, ih]; simp [h]

theorem mem_of_get (m : GoMap β) (k : Str) (v : β) (h : m.get k = some v) :
    List.Mem (k, v) m := by
  induction m with
  | nil => rw [get_nil] at h; cases h
  | cons e m ih =>
    obtain ⟨k0, v0⟩ := e
    rw [get_cons] at h
    by_cases h0 : k = k0
    · rw [if_pos h0] at h
      cases h
      subst h0
      exact List.Mem.head _
    · rw [if_neg h0] at h
      exact List.Mem.tail _ (ih h)

theorem get_of_mem (m : GoMap β) (hm : m.keys.Nodup) (k : Str) (v : β)
    (h : List.Mem (k, v) m) : m.get k = some v := by
  induction m with
  | nil => cases h
  | cons e m ih =>
    obtain ⟨k0, v0⟩ := e
    rw [keys_cons, List.nodup_cons] at hm
    rw [get_cons]
    cases h with
    | head => rw [if_pos rfl]
    | tail _ h1 =>
      have hk : k ≠ k0 := by
        rintro rfl
        exact hm.1 (List.mem_map_of_mem Prod.fst h1)
      rw [if_neg hk]
      exact ih hm.2 h1

theorem mem_keys_of_get (m : GoMap β) (k : Str) (v : β) (h : m.get k = some v) :
    k ∈ m.keys := by
  by_contra hk
  rw [(get_eq_none_iff m k).2 hk] at h
  cases h

theorem nodup_keys_set (m : GoMap β) (hm : m.keys.Nodup) (k : Str) (v : β) :
    (m.set k v).keys.Nodup := by
  induction m with
  | nil => rw [set_nil, keys_cons, keys_nil]; simp
  | cons e m ih =>
    obtain ⟨k0, v0⟩ := e
    rw [keys_cons, List.nodup_cons] at hm
    rw [set_cons]
    by_cases h0 : k0 = k
    · subst h0
      rw [if_pos rfl, keys_cons, List.nodup_cons]
      exact hm
    · rw [if_neg h0, keys_cons, List.nodup_cons]
      exact ⟨fun h => ((mem_keys_set m k k0 v).1 h).elim h0 hm.1, ih hm.2⟩

theorem list_of_get (m : GoMap (List Str)) (k : Str) (l : List Str) (h : m.get k = some l) :
    m.list k = l := by
  simp [list, h]

theorem list_push (m : GoMap (List Str)) (k u k1 : Str) :
    (m.push k u).list k1 = if k1 = k then m.list k ++ [u] else m.list k1 := by
  by_cases h : k1 = k <;> simp [push, list, get_set, h]

theorem mem_keys_push (m : GoMap (List Str)) (k u k1 : Str) :
    k1 ∈ (m.push k u).keys ↔ k1 = k ∨ k1 ∈ m.keys :=
  mem_keys_set m k k1 _

end GoMap

theorem pushAll_append (m : GoMap (List Str)) (a b : List (Str × Str)) :
    pushAll m (a ++ b) = pushAll (pushAll m a) b := by
  simp [pushAll, List.foldl_append]

theorem list_pushAll (evs : List (Str × Str)) (m : GoMap (List Str)) (k : Str) :
    (pushAll m evs).list k = m.list k ++ (evs.filter (fun e => e.1 = k)).map Prod.snd := by
  induction evs generalizing m with
  | nil => simp [pushAll]
  | cons e evs ih =>
    have h := ih (m.push e.1 e.2)
    simp only [pushAll, List.foldl_cons] at h ⊢
    rw [h, GoMap.list_push]
    by_cases hk : e.1 = k
    · subst hk; simp
    · have hk2 : ¬ k = e.1 := fun h => hk h.symm
      simp [hk, hk2]

theorem mem_keys_pushAll (evs : List (Str × Str)) (m : GoMap (List Str)) (k : Str) :
    k ∈ (pushAll m evs).keys ↔ k ∈ m.keys ∨ ∃ e ∈ evs, e.1 = k := by
  induction evs generalizing m with
  | nil => simp [pushAll]
  | cons e evs ih =>
    have h := ih (m.push e.1 e.2)
    simp only [pushAll, List.foldl_cons] at h ⊢
    rw [h, GoMap.mem_keys_push]
    simp only [List.mem_cons, exists_eq_or_imp]
    constructor
    · rintro ((h | h) | h)
      · exact Or.inr (Or.inl h.symm)
      · exact Or.inl h
      · exact Or.inr (Or.inr h)
    · rintro (h | h | h)
      · exact Or.inl (Or.inr h)
      · exact Or.inl (Or.inl h.symm)
      · exact Or.inr h

theorem nodup_keys_pushAll (evs : List (Str × Str)) (m : GoMap (List Str))
    (hm : m.keys.Nodup) : (pushAll m evs).keys.Nodup := by
  induction evs generalizing m with
  | nil => simpa [pushAll] using hm
  | cons e evs ih =>
    simp only [pushAll, List.foldl_cons]
    exact ih _ (GoMap.nodup_keys_set m hm _ _)

/-! ## The region classifier as a sequence of appends -/

theorem foldl_push_filter {α : Type} (c : α → Prop) [DecidablePred c] (kf vf : α → Str)
    (l : List α) (m : GoMap (List Str)) :
    l.foldl (fun m e => if c e then m else GoMap.push m (kf e) (vf e)) m
      = pushAll m ((l.filter (fun e => ¬ c e)).map (fun e => (kf e, vf e))) := by
  induction l generalizing m with
  | nil => rfl
  | cons a l ih =>
    rw [List.foldl_cons, ih]
    by_cases h : c a
    · simp [h]
    · simp [h, pushAll]

theorem regionStep_fold_fst (r : Str) (l : List (Str × Str))
    (st : GoMap (List Str) × List Str) :
    (l.foldl (regionStep r) st).1
      = pushAll st.1 ((l.filter (fun e => ¬ LastIndex e.1 r < 0)).map (fun e => (r, e.1))) := by
  induction l generalizing st with
  | nil => rfl
  | cons a l ih =>
    rw [List.foldl_cons, ih]
    by_cases h : LastIndex a.1 r < 0
    · simp [regionStep, h]
    · have h2 : 0 ≤ LastIndex a.1 r := by omega
      simp [regionStep, h, h2, pushAll]

theorem regionStep_fold_snd (r : Str) (l : List (Str × Str))
    (st : GoMap (List Str) × List Str) (u : Str) :
    u ∈ (l.foldl (regionStep r) st).2
      ↔ u ∈ st.2 ∨ ∃ e ∈ l, e.1 = u ∧ ¬ LastIndex e.1 r < 0 := by
  induction l generalizing st with
  | nil => simp
  | cons a l ih =>
    rw [List.foldl_cons, ih]
    by_cases h : LastIndex a.1 r < 0
    · simp only [regionStep, h, if_true, List.mem_cons, exists_eq_or_imp]
      tauto
    · simp only [regionStep, h, if_false, List.mem_cons, exists_eq_or_imp]
      constructor
      · rintro ((h1 | h1) | h1)
        · exact Or.inr (Or.inl ⟨h1.symm, id⟩)
        · exact Or.inl h1
        · exact Or.inr (Or.inr h1)
      · rintro (h1 | h1 | h1)
        · exact Or.inl (Or.inr h1)
        · exact Or.inl (Or.inl h1.1.symm)
        · exact Or.inr h1

theorem mem_regionEvents (urlMap : GoMap Str) (w : RegionWalk) (rs : List Str) (r u : Str) :
    (r, u) ∈ regionEvents urlMap w rs
      ↔ r ∈ rs ∧ r ≠ GLOBAL ∧ (∃ e ∈ w.urls r urlMap, e.1 = u) ∧ r <:+: u := by
  simp only [regionEvents, List.mem_flatMap]
  constructor
  · rintro ⟨r1, hr1, h⟩
    by_cases hg : GLOBAL = r1
    · simp [hg] at h
    · simp only [hg, if_false, List.mem_map, List.mem_filter, Prod.mk.injEq] at h
      obtain ⟨e, ⟨he, hm⟩, h1, h2⟩ := h
      subst h1
      subst h2
      refine ⟨hr1, fun h => hg h.symm, ⟨e, he, rfl⟩, ?_⟩
      have := (lastIndex_neg_iff e.1 r1)
      simp only [decide_not, Bool.not_eq_true', decide_eq_false_iff_not] at hm
      exact not_not.1 (fun hn => hm (this.2 hn))
  · rintro ⟨hr, hg, ⟨e, he, heu⟩, hin⟩
    refine ⟨r, hr, ?_⟩
    have hg2 : ¬ GLOBAL = r := fun h => hg h.symm
    simp only [hg2, if_false, List.mem_map, List.mem_filter, Prod.mk.injEq]
    refine ⟨e, ⟨he, ?_⟩, trivial, heu⟩
    subst heu
    simp only [decide_not, Bool.not_eq_true', decide_eq_false_iff_not]
    exact fun hn => (lastIndex_neg_iff e.1 r).1 hn hin

theorem regionFold_fst (urlMap : GoMap Str) (w : RegionWalk) (rs : List Str)
    (st : GoMap (List Str) × List Str) :
    (rs.foldl (fun st regionKey =>
        if GLOBAL = regionKey then st
        else (w.urls regionKey urlMap).foldl (regionStep regionKey) st) st).1
      = pushAll st.1 (regionEvents urlMap w rs) := by
  induction rs generalizing st with
  | nil => rfl
  | cons r rs ih =>
    rw [List.foldl_cons, ih]
    by_cases hg : GLOBAL = r
    · simp [regionEvents, hg]
    · simp only [hg, if_false, regionStep_fold_fst]
      rw [← pushAll_append]
      simp [regionEvents, hg]

theorem regionFold_snd (urlMap : GoMap Str) (w : RegionWalk) (rs : List Str)
    (st : GoMap (List Str) × List Str) (u : Str) :
    u ∈ (rs.foldl (fun st regionKey =>
        if GLOBAL = regionKey then st
        else (w.urls regionKey urlMap).foldl (regionStep regionKey) st) st).2
      ↔ u ∈ st.2 ∨ ∃ r, (r, u) ∈ regionEvents urlMap w rs := by
  induction rs generalizing st with
  | nil => simp [regionEvents]
  | cons r rs ih =>
    rw [List.foldl_cons, ih]
    have hcons : ∀ r1, (r1, u) ∈ regionEvents urlMap w (r :: rs)
        ↔ (r1, u) ∈ regionEvents urlMap w [r] ∨ (r1, u) ∈ regionEvents urlMap w rs := by
      intro r1
      simp [regionEvents]
    simp only [hcons, exists_or]
    by_cases hg : GLOBAL = r
    · simp [regionEvents, hg]
    · simp only [hg, if_false, regionStep_fold_snd]
      have : (∃ e ∈ w.urls r urlMap, e.1 = u ∧ ¬ LastIndex e.1 r < 0)
          ↔ ∃ r1, (r1, u) ∈ regionEvents urlMap w [r] := by
        simp only [regionEvents, List.flatMap_cons, List.flatMap_nil, List.append_nil, hg,
          if_false, List.mem_map, List.mem_filter, Prod.mk.injEq]
        constructor
        · rintro ⟨e, he, h1, h2⟩
          exact ⟨r, e, ⟨he, by simpa using h2⟩, rfl, h1⟩
        · rintro ⟨r1, e, ⟨he, h2⟩, _, h1⟩
          exact ⟨e, he, h1, by simpa using h2⟩
      rw [this]
      tauto

theorem regionLoop_fst (urlMap : GoMap Str) (regionSet : List Str) (w : RegionWalk) :
    (regionLoop urlMap regionSet w).1 = pushAll [] (regionEvents urlMap w (w.regions regionSet)) :=
  regionFold_fst urlMap w _ _

theorem mem_regionLoop_snd (urlMap : GoMap Str) (regionSet : List Str) (w : RegionWalk)
    (u : Str) :
    u ∈ (regionLoop urlMap regionSet w).2
      ↔ ∃ r, (r, u) ∈ regionEvents urlMap w (w.regions regionSet) := by
  rw [regionLoop, regionFold_snd]
  simp

theorem collectByRegion_eq (urlMap : GoMap Str) (regionSet : List Str) (w : RegionWalk) :
    collectByRegion urlMap regionSet w
      = pushAll [] (regionEvents urlMap w (w.regions regionSet)
          ++ globalEvents urlMap regionSet w) := by
  rw [pushAll_append, ← regionLoop_fst]
  exact foldl_push_filter (fun e : Str × Str => e.1 ∈ (regionLoop urlMap regionSet w).2)
    (fun _ => GLOBAL) (fun e => e.1) (w.rest urlMap) _

theorem mem_list_pushAll_nil (evs : List (Str × Str)) (k u : Str) :
    u ∈ GoMap.list (pushAll [] evs) k ↔ (k, u) ∈ evs := by
  rw [list_pushAll]
  simp only [GoMap.list, GoMap.get_nil, Option.getD_none, List.nil_append, List.mem_map,
    List.mem_filter, decide_eq_true_eq]
  constructor
  · rintro ⟨e, ⟨he, h1⟩, h2⟩
    obtain ⟨a, b⟩ := e
    simp only at h1 h2
    subst h1
    subst h2
    exact he
  · intro h
    exact ⟨(k, u), ⟨h, rfl⟩, rfl⟩

theorem mem_keys_of_mem_list (m : GoMap (List Str)) (k u : Str) (h : u ∈ GoMap.list m k) :
    k ∈ GoMap.keys m := by
  by_contra hk
  rw [GoMap.list, (GoMap.get_eq_none_iff m k).2 hk] at h
  simp at h

theorem plain_region_valid : RegionWalk.plain.Valid :=
  ⟨fun _ => List.Perm.refl _, fun _ _ => List.Perm.refl _, fun _ => List.Perm.refl _⟩

theorem plain_service_valid : ServiceWalk.plain.Valid :=
  ⟨fun _ => List.Perm.refl _, fun _ _ => List.Perm.refl _, fun _ => List.Perm.refl _⟩

theorem mem_keys_iff (m : GoMap Str) (u : Str) : u ∈ GoMap.keys m ↔ ∃ e ∈ m, e.1 = u := by
  simp [GoMap.keys]

theorem mem_walk_urls (urlMap : GoMap Str) (l : GoMap Str) (h : l.Perm urlMap) (u : Str) :
    (∃ e ∈ l, e.1 = u) ↔ u ∈ GoMap.keys urlMap := by
  rw [mem_keys_iff]
  constructor
  · rintro ⟨e, he, h1⟩
    exact ⟨e, h.mem_iff.1 he, h1⟩
  · rintro ⟨e, he, h1⟩
    exact ⟨e, h.mem_iff.2 he, h1⟩

theorem not_mem_globalEvents (urlMap : GoMap Str) (regionSet : List Str) (w : RegionWalk)
    (r u : Str) (hg : r ≠ GLOBAL) : ¬ (r, u) ∈ globalEvents urlMap regionSet w := by
  simp only [globalEvents, List.mem_map, Prod.mk.injEq, not_exists, not_and]
  intro e _ h
  exact absurd h.symm hg

theorem mem_list_region (urlMap : GoMap Str) (regionSet : List Str) (w : RegionWalk)
    (hw : w.Valid) (r u : Str) (hg : r ≠ GLOBAL) :
    u ∈ GoMap.list (collectByRegion urlMap regionSet w) r
      ↔ r ∈ regionSet ∧ u ∈ GoMap.keys urlMap ∧ r <:+: u := by
  rw [collectByRegion_eq, mem_list_pushAll_nil, List.mem_append, mem_regionEvents,
    mem_walk_urls urlMap _ (hw.2.1 r urlMap) u, (hw.1 regionSet).mem_iff]
  constructor
  · rintro (h | h)
    · exact ⟨h.1, h.2.2.1, h.2.2.2⟩
    · exact absurd h (not_mem_globalEvents urlMap regionSet w r u hg)
  · rintro ⟨h1, h2, h3⟩
    exact Or.inl ⟨h1, hg, h2, h3⟩

theorem mem_list_global (urlMap : GoMap Str) (regionSet : List Str) (w : RegionWalk)
    (hw : w.Valid) (u : Str) :
    u ∈ GoMap.list (collectByRegion urlMap regionSet w) GLOBAL
      ↔ u ∈ GoMap.keys urlMap ∧ ∀ r ∈ regionSet, r ≠ GLOBAL → ¬ r <:+: u := by
  rw [collectByRegion_eq, mem_list_pushAll_nil, List.mem_append, mem_regionEvents]
  have hused : u ∈ (regionLoop urlMap regionSet w).2
      ↔ ∃ r, r ∈ regionSet ∧ r ≠ GLOBAL ∧ u ∈ GoMap.keys urlMap ∧ r <:+: u := by
    rw [mem_regionLoop_snd]
    refine exists_congr (fun r => ?_)
    rw [mem_regionEvents, mem_walk_urls urlMap _ (hw.2.1 r urlMap) u, (hw.1 regionSet).mem_iff]
  have hglob : (GLOBAL, u) ∈ globalEvents urlMap regionSet w
      ↔ u ∈ GoMap.keys urlMap ∧ ¬ u ∈ (regionLoop urlMap regionSet w).2 := by
    rw [← mem_walk_urls urlMap _ (hw.2.2 urlMap) u]
    simp only [globalEvents, List.mem_map, List.mem_filter, Prod.mk.injEq, true_and,
      decide_not, Bool.not_eq_true', decide_eq_false_iff_not]
    constructor
    · rintro ⟨e, ⟨he, h1⟩, h2⟩
      subst h2
      exact ⟨⟨e, he, rfl⟩, h1⟩
    · rintro ⟨⟨e, he, h2⟩, h1⟩
      subst h2
      exact ⟨e, ⟨he, h1⟩, rfl⟩
  rw [hglob, hused]
  constructor
  · rintro (h | ⟨h1, h2⟩)
    · exact absurd rfl h.2.1
    · exact ⟨h1, fun r hr hg hin => h2 ⟨r, hr, hg, h1, hin⟩⟩
  · rintro ⟨h1, h2⟩
    refine Or.inr ⟨h1, ?_⟩
    rintro ⟨r, hr, hg, _, hin⟩
    exact h2 r hr hg hin

theorem list_global_eq (urlMap : GoMap Str) (regionSet : List Str) (w : RegionWalk) :
    GoMap.list (collectByRegion urlMap regionSet w) GLOBAL
      = ((w.rest urlMap).filter (fun e => ¬ e.1 ∈ (regionLoop urlMap regionSet w).2)).map
          Prod.fst := by
  rw [collectByRegion_eq, list_pushAll, List.filter_append]
  have h1 : (regionEvents urlMap w (w.regions regionSet)).filter (fun e => e.1 = GLOBAL) = [] := by
    rw [List.filter_eq_nil_iff]
    rintro ⟨r, u⟩ he
    have := ((mem_regionEvents urlMap w _ r u).1 he).2.1
    simpa using this
  have h2 : (globalEvents urlMap regionSet w).filter (fun e => e.1 = GLOBAL)
      = globalEvents urlMap regionSet w := by
    rw [List.filter_eq_self]
    intro e he
    simp only [globalEvents, List.mem_map] at he
    obtain ⟨a, _, rfl⟩ := he
    simp
  rw [h1, h2]
  simp [GoMap.list, GoMap.get_nil, globalEvents, List.map_map, Function.comp_def]

theorem nodup_filter_map_fst (l : GoMap Str) (hn : (GoMap.keys l).Nodup)
    (p : Str × Str → Bool) : ((l.filter p).map Prod.fst).Nodup :=
  List.Nodup.sublist ((List.filter_sublist l).map Prod.fst) hn

theorem nodup_keys_of_perm (urlMap l : GoMap Str) (h : l.Perm urlMap)
    (hn : (GoMap.keys urlMap).Nodup) : (GoMap.keys l).Nodup :=
  ((h.map Prod.fst).nodup_iff).2 hn

/-! ## The claims on the region classifier -/

/-- C1: for a region `r` of the RegionSet other than the sentinel `GLOBAL` and a
FeedURL `u` of the URLIndex, `u` is in the list `collectByRegion` returns under
the key `r` if and only if `r` occurs in `u` as a substring, whatever the order
in which the maps are walked. -/
theorem collectByRegion_region_iff (urlMap : GoMap Str) (regionSet : List Str)
    (w : RegionWalk) (hw : w.Valid) (r : Str) (hr : r ∈ regionSet) (hg : r ≠ GLOBAL)
    (u : Str) (hu : u ∈ GoMap.keys urlMap) :
    u ∈ GoMap.list (collectByRegion urlMap regionSet w) r ↔ r <:+: u := by
  rw [mem_list_region urlMap regionSet w hw r u hg]
  exact ⟨fun h => h.2.2, fun h => ⟨hr, hu, h⟩⟩

set_option maxRecDepth 100000 in
/-- C1 at the URLIndex with the one feed `ec2-us-east-1.rss` and the RegionSet
`us-east-1`, `GLOBAL`: the partition is the single key `us-east-1` with that
feed. -/
theorem collectByRegion_region_iff_witness :
    collectByRegion ec2Index exampleRegions RegionWalk.plain = [(usEast1, [ec2Feed])]
    ∧ usEast1 ∈ exampleRegions ∧ usEast1 ≠ GLOBAL ∧ ec2Feed ∈ GoMap.keys ec2Index
    ∧ (ec2Feed ∈ GoMap.list (collectByRegion ec2Index exampleRegions RegionWalk.plain) usEast1
        ↔ usEast1 <:+: ec2Feed) :=
  ⟨by decide, by decide, by decide, by decide,
    collectByRegion_region_iff ec2Index exampleRegions RegionWalk.plain plain_region_valid
      usEast1 (by decide) (by decide) ec2Feed (by decide)⟩

/-- C2: every FeedURL of the URLIndex is in the list of some key of the partition
`collectByRegion` returns, and the list under the sentinel key `GLOBAL` holds
exactly the FeedURLs in which no non-sentinel region of the RegionSet occurs as a
substring, each of them once. -/
theorem collectByRegion_global (urlMap : GoMap Str) (regionSet : List Str)
    (w : RegionWalk) (hw : w.Valid) (hn : (GoMap.keys urlMap).Nodup) :
    (∀ u ∈ GoMap.keys urlMap, ∃ k ∈ GoMap.keys (collectByRegion urlMap regionSet w),
        u ∈ GoMap.list (collectByRegion urlMap regionSet w) k)
    ∧ (∀ u, u ∈ GoMap.list (collectByRegion urlMap regionSet w) GLOBAL
        ↔ u ∈ GoMap.keys urlMap ∧ ∀ r ∈ regionSet, r ≠ GLOBAL → ¬ r <:+: u)
    ∧ (GoMap.list (collectByRegion urlMap regionSet w) GLOBAL).Nodup := by
  refine ⟨?_, mem_list_global urlMap regionSet w hw, ?_⟩
  · intro u hu
    by_cases h : ∃ r, r ∈ regionSet ∧ r ≠ GLOBAL ∧ r <:+: u
    · obtain ⟨r, hr, hg, hin⟩ := h
      have hm := (mem_list_region urlMap regionSet w hw r u hg).2 ⟨hr, hu, hin⟩
      exact ⟨r, mem_keys_of_mem_list _ r u hm, hm⟩
    · have hm := (mem_list_global urlMap regionSet w hw u).2
        ⟨hu, fun r hr hg hin => h ⟨r, hr, hg, hin⟩⟩
      exact ⟨GLOBAL, mem_keys_of_mem_list _ GLOBAL u hm, hm⟩
  · rw [list_global_eq]
    exact nodup_filter_map_fst _ (nodup_keys_of_perm urlMap _ (hw.2.2 urlMap) hn) _

set_option maxRecDepth 100000 in
/-- C2 at the URLIndex with the one feed `globalservice.rss` and the RegionSet
`us-east-1`, `GLOBAL`: the partition is the single key `GLOBAL` with that feed. -/
theorem collectByRegion_global_witness :
    collectByRegion globalIndex exampleRegions RegionWalk.plain = [(GLOBAL, [globalFeed])]
    ∧ (GoMap.keys globalIndex).Nodup
    ∧ (∀ u ∈ GoMap.keys globalIndex,
        ∃ k ∈ GoMap.keys (collectByRegion globalIndex exampleRegions RegionWalk.plain),
        u ∈ GoMap.list (collectByRegion globalIndex exampleRegions RegionWalk.plain) k)
    ∧ (∀ u, u ∈ GoMap.list (collectByRegion globalIndex exampleRegions RegionWalk.plain) GLOBAL
        ↔ u ∈ GoMap.keys globalIndex ∧ ∀ r ∈ exampleRegions, r ≠ GLOBAL → ¬ r <:+: u)
    ∧ (GoMap.list (collectByRegion globalIndex exampleRegions RegionWalk.plain) GLOBAL).Nodup :=
  ⟨by decide, by decide,
    collectByRegion_global globalIndex exampleRegions RegionWalk.plain plain_region_valid
      (by decide)⟩

/-! ## The service classifier as a sequence of appends -/

theorem serviceStep_fold_results (u v : Str) (l : List Str) (st : ServiceState) :
    (l.foldl (serviceStep u v) st).serviceResults
      = pushAll st.serviceResults
          ((l.filter (fun r => ¬ r = GLOBAL ∧ ¬ Replace (urlItem u) r [] = urlItem u)).map
            (fun r => (Replace (urlItem u) r [], u))) := by
  induction l generalizing st with
  | nil => rfl
  | cons r l ih =>
    rw [List.foldl_cons, ih]
    by_cases hg : r = GLOBAL
    · simp [serviceStep, hg]
    · by_cases hs : Replace (urlItem u) r [] = urlItem u
      · simp [serviceStep, hg, hs]
      · simp [serviceStep, hg, hs, pushAll]

theorem serviceStep_fold_used (u v : Str) (l : List Str) (st : ServiceState) (x : Str) :
    x ∈ (l.foldl (serviceStep u v) st).usedKeys
      ↔ x ∈ st.usedKeys
        ∨ (x = u ∧ ∃ r ∈ l, r ≠ GLOBAL ∧ Replace (urlItem u) r [] ≠ urlItem u) := by
  induction l generalizing st with
  | nil => simp
  | cons r l ih =>
    rw [List.foldl_cons, ih]
    by_cases hg : r = GLOBAL
    · simp [serviceStep, hg]
    · by_cases hs : Replace (urlItem u) r [] = urlItem u
      · simp [serviceStep, hg, hs]
      · simp only [serviceStep, hg, hs, if_false, List.mem_cons, exists_eq_or_imp, ne_eq,
          not_false_eq_true, true_and]
        tauto

theorem mem_stemEvents (regionSet : List Str) (w : ServiceWalk) (e : Str × Str) (k x : Str) :
    (k, x) ∈ stemEvents regionSet w e
      ↔ e.1 = x ∧ urlItem x ≠ [] ∧ ∃ r ∈ w.regions x regionSet,
          r ≠ GLOBAL ∧ Replace (urlItem x) r [] ≠ urlItem x ∧ Replace (urlItem x) r [] = k := by
  by_cases h0 : urlItem e.1 = []
  · simp only [stemEvents, h0, if_true, List.not_mem_nil, false_iff]
    rintro ⟨h1, h2, _⟩
    subst h1
    exact h2 h0
  · simp only [stemEvents, h0, if_false, List.mem_map, List.mem_filter, Prod.mk.injEq,
      decide_eq_true_eq]
    constructor
    · rintro ⟨r, ⟨hr, hg, hs⟩, h1, h2⟩
      subst h2
      exact ⟨rfl, h0, r, hr, hg, hs, h1⟩
    · rintro ⟨h2, _, r, hr, hg, hs, h1⟩
      subst h2
      exact ⟨r, ⟨hr, hg, hs⟩, h1, rfl⟩

theorem mem_serviceEvents (regionSet : List Str) (w : ServiceWalk) (l : GoMap Str) (k x : Str) :
    (k, x) ∈ serviceEvents regionSet w l
      ↔ (∃ e ∈ l, e.1 = x) ∧ urlItem x ≠ [] ∧ ∃ r ∈ w.regions x regionSet,
          r ≠ GLOBAL ∧ Replace (urlItem x) r [] ≠ urlItem x ∧ Replace (urlItem x) r [] = k := by
  simp only [serviceEvents, List.mem_flatMap, mem_stemEvents]
  constructor
  · rintro ⟨e, he, h1, h2⟩
    exact ⟨⟨e, he, h1⟩, h2⟩
  · rintro ⟨⟨e, he, h1⟩, h2⟩
    exact ⟨e, he, h1, h2⟩

theorem serviceScan_fold_results (regionSet : List Str) (w : ServiceWalk) (l : GoMap Str)
    (st : ServiceState) :
    (l.foldl (serviceScan regionSet w) st).serviceResults
      = pushAll st.serviceResults (serviceEvents regionSet w l) := by
  induction l generalizing st with
  | nil => rfl
  | cons e l ih =>
    rw [List.foldl_cons, ih]
    have hc : serviceEvents regionSet w (e :: l)
        = stemEvents regionSet w e ++ serviceEvents regionSet w l := by
      simp [serviceEvents]
    rw [hc, pushAll_append]
    by_cases h0 : urlItem e.1 = []
    · simp [serviceScan, stemEvents, h0, pushAll]
    · simp only [serviceScan, stemEvents, h0, if_false, serviceStep_fold_results]

theorem serviceScan_fold_used (regionSet : List Str) (w : ServiceWalk) (l : GoMap Str)
    (st : ServiceState) (x : Str) :
    x ∈ (l.foldl (serviceScan regionSet w) st).usedKeys
      ↔ x ∈ st.usedKeys ∨ ∃ k, (k, x) ∈ serviceEvents regionSet w l := by
  induction l generalizing st with
  | nil => simp [serviceEvents]
  | cons e l ih =>
    rw [List.foldl_cons, ih]
    have hc : ∀ k, (k, x) ∈ serviceEvents regionSet w (e :: l)
        ↔ (k, x) ∈ stemEvents regionSet w e ∨ (k, x) ∈ serviceEvents regionSet w l := by
      intro k
      simp [serviceEvents]
    simp only [hc, exists_or]
    have hs : x ∈ (serviceScan regionSet w st e).usedKeys
        ↔ x ∈ st.usedKeys ∨ ∃ k, (k, x) ∈ stemEvents regionSet w e := by
      simp only [mem_stemEvents]
      by_cases h0 : urlItem e.1 = []
      · simp only [serviceScan, h0, if_true]
        constructor
        · exact Or.inl
        · rintro (h | ⟨k, h1, h2, _⟩)
          · exact h
          · subst h1
            exact absurd h0 h2
      · simp only [serviceScan, h0, if_false, serviceStep_fold_used]
        constructor
        · rintro (h | ⟨h1, r, hr, hg, hs⟩)
          · exact Or.inl h
          · subst h1
            exact Or.inr ⟨_, rfl, h0, r, hr, hg, hs, rfl⟩
        · rintro (h | ⟨k, h1, _, r, hr, hg, hs, _⟩)
          · exact Or.inl h
          · subst h1
            exact Or.inr ⟨rfl, r, hr, hg, hs⟩
    rw [hs]
    tauto

theorem serviceRest_used (st : ServiceState) (e : Str × Str) :
    (serviceRest st e).usedKeys = st.usedKeys := by
  unfold serviceRest
  split
  · rfl
  · split <;> rfl

theorem serviceRest_fold_used (l : GoMap Str) (st : ServiceState) :
    (l.foldl serviceRest st).usedKeys = st.usedKeys := by
  induction l generalizing st with
  | nil => rfl
  | cons e l ih => rw [List.foldl_cons, ih, serviceRest_used]

theorem serviceRest_fold_results (l : GoMap Str) (st : ServiceState) :
    (l.foldl serviceRest st).serviceResults
      = pushAll st.serviceResults
          ((l.filter (fun e => ¬ e.1 ∈ st.usedKeys ∧ ¬ urlItem e.1 = [])).map
            (fun e => (urlItem e.1, e.1))) := by
  induction l generalizing st with
  | nil => rfl
  | cons e l ih =>
    rw [List.foldl_cons, ih, serviceRest_used]
    by_cases h1 : e.1 ∈ st.usedKeys
    · simp [serviceRest, h1]
    · by_cases h0 : urlItem e.1 = []
      · simp [serviceRest, h1, h0]
      · simp [serviceRest, h1, h0, pushAll]

theorem collectByService_fst_eq (urlMap : GoMap Str) (regionSet : List Str) (w : ServiceWalk) :
    (collectByService urlMap regionSet w).1
      = pushAll [] (serviceEvents regionSet w (w.urls urlMap)
          ++ restEvents urlMap regionSet w) := by
  rw [pushAll_append]
  show ((w.rest urlMap).foldl serviceRest (serviceLoop urlMap regionSet w)).serviceResults = _
  rw [serviceRest_fold_results, restEvents]
  congr 1
  exact serviceScan_fold_results regionSet w (w.urls urlMap) _

theorem mem_serviceLoop_used (urlMap : GoMap Str) (regionSet : List Str) (w : ServiceWalk)
    (x : Str) :
    x ∈ (serviceLoop urlMap regionSet w).usedKeys
      ↔ ∃ k, (k, x) ∈ serviceEvents regionSet w (w.urls urlMap) := by
  rw [serviceLoop, serviceScan_fold_used]
  simp

theorem mem_restEvents (urlMap : GoMap Str) (regionSet : List Str) (w : ServiceWalk)
    (k x : Str) :
    (k, x) ∈ restEvents urlMap regionSet w
      ↔ (∃ e ∈ w.rest urlMap, e.1 = x) ∧ ¬ x ∈ (serviceLoop urlMap regionSet w).usedKeys
        ∧ urlItem x ≠ [] ∧ k = urlItem x := by
  simp only [restEvents, List.mem_map, List.mem_filter, Prod.mk.injEq, decide_eq_true_eq]
  constructor
  · rintro ⟨e, ⟨he, h1, h0⟩, h2, h3⟩
    subst h3
    exact ⟨⟨e, he, rfl⟩, h1, h0, h2.symm⟩
  · rintro ⟨⟨e, he, h3⟩, h1, h0, h2⟩
    subst h3
    exact ⟨e, ⟨he, h1, h0⟩, h2.symm, rfl⟩

theorem mem_list_service (urlMap : GoMap Str) (regionSet : List Str) (w : ServiceWalk)
    (hw : w.Valid) (u k : Str) :
    u ∈ GoMap.list (collectByService urlMap regionSet w).1 k
      ↔ u ∈ GoMap.keys urlMap ∧ urlItem u ≠ [] ∧
        ((∃ r ∈ regionSet, r ≠ GLOBAL ∧ Replace (urlItem u) r [] ≠ urlItem u
            ∧ Replace (urlItem u) r [] = k)
          ∨ ((∀ r ∈ regionSet, r ≠ GLOBAL → Replace (urlItem u) r [] = urlItem u)
            ∧ k = urlItem u)) := by
  rw [collectByService_fst_eq, mem_list_pushAll_nil, List.mem_append, mem_restEvents,
    mem_serviceLoop_used]
  simp only [mem_serviceEvents, mem_walk_urls urlMap _ (hw.1 urlMap) u,
    mem_walk_urls urlMap _ (hw.2.2 urlMap) u, (hw.2.1 u regionSet).mem_iff]
  constructor
  · rintro (⟨h1, h2, h3⟩ | ⟨h1, h2, h3, h4⟩)
    · exact ⟨h1, h2, Or.inl h3⟩
    · refine ⟨h1, h3, Or.inr ⟨fun r hr hg => ?_, h4⟩⟩
      by_contra hs
      exact h2 ⟨_, h1, h3, r, hr, hg, hs, rfl⟩
  · rintro ⟨h1, h2, h3 | ⟨h3, h4⟩⟩
    · exact Or.inl ⟨h1, h2, h3⟩
    · refine Or.inr ⟨h1, ?_, h2, h4⟩
      rintro ⟨_, _, _, r, hr, hg, hs, _⟩
      exact hs (h3 r hr hg)

theorem get_pushAll_nil_ne_nil (evs : List (Str × Str)) (k : Str) (l : List Str)
    (h : GoMap.get (pushAll [] evs) k = some l) : l ≠ [] := by
  have hk := GoMap.mem_keys_of_get _ k l h
  rw [mem_keys_pushAll] at hk
  rcases hk with hk | ⟨e, he, hek⟩
  · simp [GoMap.keys] at hk
  · obtain ⟨k1, u⟩ := e
    simp only at hek
    subst hek
    have hm := (mem_list_pushAll_nil evs k1 u).2 he
    rw [GoMap.list_of_get _ k1 l h] at hm
    exact List.ne_nil_of_mem hm

theorem serviceInv_record (urlMap : GoMap Str) (sm : GoMap Str) (sr : GoMap (List Str))
    (used1 used2 : List Str) (k u v : Str) (h : ServiceInv urlMap ⟨sm, used1, sr⟩)
    (huv : List.Mem (u, v) urlMap) :
    ServiceInv urlMap ⟨GoMap.set sm k v, used2, GoMap.push sr k u⟩ := by
  obtain ⟨h1, h2⟩ := h
  simp only at h1 h2
  refine ⟨fun k1 => ?_, fun k1 name hget => ?_⟩
  · simp only [GoMap.mem_keys_set, GoMap.mem_keys_push, h1 k1]
  · simp only at hget ⊢
    rw [GoMap.get_set] at hget
    rw [GoMap.list_push]
    by_cases hk : k1 = k
    · rw [if_pos hk] at hget ⊢
      cases hget
      exact ⟨u, by simp, huv⟩
    · rw [if_neg hk] at hget ⊢
      exact h2 k1 name hget

theorem serviceInv_step (urlMap : GoMap Str) (u v : Str) (huv : List.Mem (u, v) urlMap)
    (l : List Str) (st : ServiceState) (h : ServiceInv urlMap st) :
    ServiceInv urlMap (l.foldl (serviceStep u v) st) := by
  induction l generalizing st with
  | nil => exact h
  | cons r l ih =>
    rw [List.foldl_cons]
    apply ih
    by_cases hg : r = GLOBAL
    · simpa [serviceStep, hg] using h
    · by_cases hs : Replace (urlItem u) r [] = urlItem u
      · simpa [serviceStep, hg, hs] using h
      · simp only [serviceStep, hg, hs, if_false]
        exact serviceInv_record urlMap _ _ st.usedKeys _ _ u v h huv

theorem serviceInv_scan (urlMap : GoMap Str) (regionSet : List Str) (w : ServiceWalk)
    (l : GoMap Str) (hl : ∀ e, List.Mem e l → List.Mem e urlMap) (st : ServiceState)
    (h : ServiceInv urlMap st) :
    ServiceInv urlMap (l.foldl (serviceScan regionSet w) st) := by
  induction l generalizing st with
  | nil => exact h
  | cons e l ih =>
    rw [List.foldl_cons]
    apply ih (fun e1 h1 => hl e1 (List.Mem.tail _ h1))
    unfold serviceScan
    split
    · exact h
    · exact serviceInv_step urlMap e.1 e.2 (hl e (List.Mem.head _)) _ st h

theorem serviceInv_rest (urlMap : GoMap Str) (l : GoMap Str)
    (hl : ∀ e, List.Mem e l → List.Mem e urlMap) (st : ServiceState)
    (h : ServiceInv urlMap st) :
    ServiceInv urlMap (l.foldl serviceRest st) := by
  induction l generalizing st with
  | nil => exact h
  | cons e l ih =>
    rw [List.foldl_cons]
    apply ih (fun e1 h1 => hl e1 (List.Mem.tail _ h1))
    unfold serviceRest
    split
    · exact h
    · split
      · exact h
      · exact serviceInv_record urlMap _ _ st.usedKeys _ _ e.1 e.2 h (hl e (List.Mem.head _))

theorem serviceInv_run (urlMap : GoMap Str) (regionSet : List Str) (w : ServiceWalk)
    (hw : w.Valid) : ServiceInv urlMap (serviceRun urlMap regionSet w) := by
  apply serviceInv_rest urlMap _ (fun e he => (hw.2.2 urlMap).mem_iff.1 he)
  apply serviceInv_scan urlMap regionSet w _ (fun e he => (hw.1 urlMap).mem_iff.1 he)
  refine ⟨fun k => Iff.rfl, fun k name hget => ?_⟩
  simp [GoMap.get_nil] at hget

theorem regionEvents_nil (w : RegionWalk) (hw : w.Valid) (rs : List Str) :
    regionEvents [] w rs = [] := by
  simp only [regionEvents, List.flatMap_eq_nil_iff]
  intro r _
  have h : w.urls r [] = [] := List.Perm.eq_nil (hw.2.1 r [])
  split
  · rfl
  · rw [h]; rfl

/-! ## The claims on the service classifier and on empty lists -/

/-- C3: with `s` the stem `collectByService` computes for a FeedURL `u` of the
URLIndex, `u` is listed under the key `k` of the service partition if and only
if `s` is not empty and either some non-sentinel region of the RegionSet, removed
from `s`, changes it and leaves `k`, or no non-sentinel region changes `s` and
`k` is `s`. A FeedURL with an empty stem is listed under no key. -/
theorem collectByService_key_iff (urlMap : GoMap Str) (regionSet : List Str)
    (w : ServiceWalk) (hw : w.Valid) (u : Str) (hu : u ∈ GoMap.keys urlMap) :
    (∀ k, u ∈ GoMap.list (collectByService urlMap regionSet w).1 k
      ↔ urlItem u ≠ [] ∧
        ((∃ r ∈ regionSet, r ≠ GLOBAL ∧ Replace (urlItem u) r [] ≠ urlItem u
            ∧ Replace (urlItem u) r [] = k)
          ∨ ((∀ r ∈ regionSet, r ≠ GLOBAL → Replace (urlItem u) r [] = urlItem u)
            ∧ k = urlItem u)))
    ∧ (urlItem u = [] → ∀ k, ¬ u ∈ GoMap.list (collectByService urlMap regionSet w).1 k) := by
  refine ⟨fun k => ?_, fun h0 k hm => ?_⟩
  · rw [mem_list_service urlMap regionSet w hw u k]
    exact ⟨fun h => h.2, fun h => ⟨hu, h⟩⟩
  · exact ((mem_list_service urlMap regionSet w hw u k).1 hm).2.1 h0

set_option maxRecDepth 100000 in
/-- C3 at the URLIndex with the one feed `ec2-us-east-1.rss` and the RegionSet
`us-east-1`, `GLOBAL`: the stem is `ec2-us-east-1`, the region removed leaves the
key `ec2-`, and the feed is listed under it. -/
theorem collectByService_key_iff_witness :
    urlItem ec2Feed = "ec2-us-east-1".toList
    ∧ Replace "ec2-us-east-1".toList usEast1 [] = ec2Key
    ∧ collectByService ec2Index exampleRegions ServiceWalk.plain
        = ([(ec2Key, [ec2Feed])], [(ec2Key, "EC2 (N. Virginia)".toList)])
    ∧ ec2Feed ∈ GoMap.keys ec2Index
    ∧ (∀ k, ec2Feed ∈ GoMap.list (collectByService ec2Index exampleRegions ServiceWalk.plain).1 k
        ↔ urlItem ec2Feed ≠ [] ∧
          ((∃ r ∈ exampleRegions, r ≠ GLOBAL ∧ Replace (urlItem ec2Feed) r [] ≠ urlItem ec2Feed
              ∧ Replace (urlItem ec2Feed) r [] = k)
            ∨ ((∀ r ∈ exampleRegions, r ≠ GLOBAL →
                  Replace (urlItem ec2Feed) r [] = urlItem ec2Feed)
              ∧ k = urlItem ec2Feed))) :=
  ⟨by decide, by decide, by decide, by decide,
    (collectByService_key_iff ec2Index exampleRegions ServiceWalk.plain plain_service_valid
      ec2Feed (by decide)).1⟩

/-- C9: no key of the partition returned by `collectByRegion` or by
`collectByService` is mapped to an empty list, and with an empty URLIndex both
partitions and the display-name mapping have no key at all. -/
theorem partitions_have_no_empty_list (urlMap : GoMap Str) (regionSet : List Str)
    (wr : RegionWalk) (ws : ServiceWalk) (hwr : wr.Valid) (hws : ws.Valid) :
    (∀ k l, GoMap.get (collectByRegion urlMap regionSet wr) k = some l → l ≠ [])
    ∧ (∀ k l, GoMap.get (collectByService urlMap regionSet ws).1 k = some l → l ≠ [])
    ∧ collectByRegion [] regionSet wr = []
    ∧ collectByService [] regionSet ws = ([], []) := by
  have h1 : ws.urls [] = [] := List.Perm.eq_nil (hws.1 [])
  have h2 : ws.rest [] = [] := List.Perm.eq_nil (hws.2.2 [])
  have h3 : wr.rest [] = [] := List.Perm.eq_nil (hwr.2.2 [])
  refine ⟨fun k l h => ?_, fun k l h => ?_, ?_, ?_⟩
  · rw [collectByRegion_eq] at h
    exact get_pushAll_nil_ne_nil _ k l h
  · rw [collectByService_fst_eq] at h
    exact get_pushAll_nil_ne_nil _ k l h
  · rw [collectByRegion_eq, regionEvents_nil wr hwr, globalEvents, h3]
    rfl
  · simp only [collectByService, serviceRun, serviceLoop, h1, h2, List.foldl_nil]

set_option maxRecDepth 100000 in
/-- C9 at the example URLIndex, and at the empty URLIndex with the RegionSet
`us-east-1`, `GLOBAL`. -/
theorem partitions_have_no_empty_list_witness :
    exampleRegions ≠ []
    ∧ collectByRegion [] exampleRegions RegionWalk.plain = []
    ∧ collectByService [] exampleRegions ServiceWalk.plain = ([], [])
    ∧ (∀ k l, GoMap.get (collectByRegion ec2Index exampleRegions RegionWalk.plain) k = some l
        → l ≠ [])
    ∧ (∀ k l, GoMap.get (collectByService ec2Index exampleRegions ServiceWalk.plain).1 k = some l
        → l ≠ []) :=
  ⟨by decide, by decide, by decide,
    (partitions_have_no_empty_list ec2Index exampleRegions RegionWalk.plain ServiceWalk.plain
      plain_region_valid plain_service_valid).1,
    (partitions_have_no_empty_list ec2Index exampleRegions RegionWalk.plain ServiceWalk.plain
      plain_region_valid plain_service_valid).2.1⟩

/-- C10: the two results of `collectByService` agree for every order of the map
walks: the display-name mapping has the keys of the service partition, the name
stored for a key is the ServiceName the URLIndex gives to a FeedURL listed under
that key, and the header `writeSlackFeed` derives for a key of the partition is
made from such a name. -/
theorem collectByService_names_agree (urlMap : GoMap Str) (regionSet : List Str)
    (w : ServiceWalk) (hw : w.Valid) (hn : (GoMap.keys urlMap).Nodup) :
    (∀ k, k ∈ GoMap.keys (collectByService urlMap regionSet w).2
        ↔ k ∈ GoMap.keys (collectByService urlMap regionSet w).1)
    ∧ (∀ k name, GoMap.get (collectByService urlMap regionSet w).2 k = some name →
        ∃ u, u ∈ GoMap.list (collectByService urlMap regionSet w).1 k
          ∧ GoMap.get urlMap u = some name)
    ∧ (∀ k, k ∈ GoMap.keys (collectByService urlMap regionSet w).1 →
        ∃ u name, u ∈ GoMap.list (collectByService urlMap regionSet w).1 k
          ∧ GoMap.get urlMap u = some name
          ∧ headerText k (some (collectByService urlMap regionSet w).2) = nameText name) := by
  obtain ⟨h1, h2⟩ := serviceInv_run urlMap regionSet w hw
  have h3 : ∀ k name, GoMap.get (collectByService urlMap regionSet w).2 k = some name →
      ∃ u, u ∈ GoMap.list (collectByService urlMap regionSet w).1 k
        ∧ GoMap.get urlMap u = some name := by
    intro k name hget
    obtain ⟨u, hu, hmem⟩ := h2 k name hget
    exact ⟨u, hu, GoMap.get_of_mem urlMap hn u name hmem⟩
  refine ⟨h1, h3, fun k hk => ?_⟩
  have hk2 := (h1 k).2 hk
  cases hget : GoMap.get (collectByService urlMap regionSet w).2 k with
  | none => exact absurd hk2 ((GoMap.get_eq_none_iff _ k).1 hget)
  | some name =>
    obtain ⟨u, hu, hname⟩ := h3 k name hget
    refine ⟨u, name, hu, hname, ?_⟩
    have hpos : 0 < (collectByService urlMap regionSet w).2.length := by
      cases hm : (collectByService urlMap regionSet w).2 with
      | nil => rw [hm, GoMap.get_nil] at hget; cases hget
      | cons e m => simp
    simp only [headerText, hpos, if_true, hget]

set_option maxRecDepth 100000 in
/-- C10 at the URLIndex with the one feed `ec2-us-east-1.rss`: the key `ec2-` has
the display name of that feed, and its header reads `EC2`. -/
theorem collectByService_names_agree_witness :
    headerText ec2Key (some (collectByService ec2Index exampleRegions ServiceWalk.plain).2)
      = "EC2".toList
    ∧ (GoMap.keys ec2Index).Nodup
    ∧ (∀ k, k ∈ GoMap.keys (collectByService ec2Index exampleRegions ServiceWalk.plain).2
        ↔ k ∈ GoMap.keys (collectByService ec2Index exampleRegions ServiceWalk.plain).1)
    ∧ (∀ k name,
        GoMap.get (collectByService ec2Index exampleRegions ServiceWalk.plain).2 k = some name →
        ∃ u, u ∈ GoMap.list (collectByService ec2Index exampleRegions ServiceWalk.plain).1 k
          ∧ GoMap.get ec2Index u = some name) :=
  ⟨by decide, by decide,
    (collectByService_names_agree ec2Index exampleRegions ServiceWalk.plain plain_service_valid
      (by decide)).1,
    (collectByService_names_agree ec2Index exampleRegions ServiceWalk.plain plain_service_valid
      (by decide)).2.1⟩

/-! ## The header text -/

theorem index_char (c : Char) (s : Str) :
    Index s [c] = if c ∈ s then ((s.takeWhile (fun x => x ≠ c)).length : Int) else -1 := by
  induction s with
  | nil => simp [Index]
  | cons a s ih =>
    by_cases hca : c = a
    · subst hca
      simp [Index, List.isPrefixOf]
    · have hac : ¬ a = c := fun h => hca h.symm
      have hp : List.isPrefixOf [c] (a :: s) = false := by
        simp [List.isPrefixOf, hca]
      rw [Index, hp, ih]
      by_cases hm : c ∈ s
      · have h0 : ¬ ((List.takeWhile (fun x => decide (x ≠ c)) s).length : Int) < 0 := by omega
        simp [hm, hca, hac, h0]
      · simp [hm, hca, hac]

theorem nameText_eq (name : Str) :
    nameText name = TrimSpace (name.takeWhile (fun c => c ≠ '(')) := by
  have hlit : "(".toList = ['('] := rfl
  unfold nameText
  simp only [hlit, index_char]
  by_cases hm : '(' ∈ name
  · have h1 : ((List.takeWhile (fun x => decide (x ≠ '(')) name).length : Int) > -1 := by omega
    simp only [hm, if_true, h1, Int.toNat_ofNat]
    congr 1
    exact ((List.prefix_iff_eq_take).1 (List.takeWhile_prefix _)).symm
  · have h2 : name.takeWhile (fun c => decide (c ≠ '(')) = name := by
      rw [List.takeWhile_eq_self_iff]
      intro c hc
      have : c ≠ '(' := fun h => hm (h ▸ hc)
      simpa using this
    simp only [hm, if_false]
    rw [h2]
    simp

theorem mem_of_mem_trimSpace (s : Str) (c : Char) (h : c ∈ TrimSpace s) : c ∈ s := by
  unfold TrimSpace at h
  rw [List.mem_reverse] at h
  have h1 := (List.dropWhile_suffix isSpace).subset h
  rw [List.mem_reverse] at h1
  exact (List.dropWhile_suffix isSpace).subset h1

theorem paren_not_mem_nameText (name : Str) : ¬ '(' ∈ nameText name := by
  rw [nameText_eq]
  intro h
  have h1 := List.mem_takeWhile_imp (mem_of_mem_trimSpace _ _ h)
  simp at h1

/-- C7: for a key with an entry in the display-name mapping, the header text of
its block is the display name cut before its first `(` and trimmed of surrounding
white space, so the text holds no `(` and no parenthesized substring. -/
theorem headerText_of_display_name (nm : GoMap Str) (val name : Str)
    (h : GoMap.get nm val = some name) :
    headerText val (some nm) = TrimSpace (name.takeWhile (fun c => c ≠ '('))
    ∧ ¬ '(' ∈ headerText val (some nm)
    ∧ (∀ x : Str, ¬ ("(".toList ++ x ++ ")".toList) <:+: headerText val (some nm)) := by
  have hpos : 0 < nm.length := by
    cases nm with
    | nil => rw [GoMap.get_nil] at h; cases h
    | cons e m => simp
  have hh : headerText val (some nm) = nameText name := by
    simp only [headerText, hpos, if_true, h]
  rw [hh]
  refine ⟨nameText_eq name, paren_not_mem_nameText name, fun x hx => ?_⟩
  apply paren_not_mem_nameText name
  apply hx.subset
  have hlit : "(".toList = ['('] := rfl
  simp [hlit]

set_option maxRecDepth 100000 in
/-- C7 at the display name `VPCE PrivateLink (Singapore)`: the header text is
`VPCE PrivateLink`. -/
theorem headerText_of_display_name_witness :
    GoMap.get [(ec2Key, vpceName)] ec2Key = some vpceName
    ∧ headerText ec2Key (some [(ec2Key, vpceName)]) = "VPCE PrivateLink".toList
    ∧ headerText ec2Key (some [(ec2Key, vpceName)])
        = TrimSpace (vpceName.takeWhile (fun c => c ≠ '('))
    ∧ ¬ '(' ∈ headerText ec2Key (some [(ec2Key, vpceName)]) :=
  ⟨by decide, by decide,
    (headerText_of_display_name [(ec2Key, vpceName)] ec2Key vpceName (by decide)).1,
    (headerText_of_display_name [(ec2Key, vpceName)] ec2Key vpceName (by decide)).2.1⟩

/-! ## Sorting -/

theorem less_iff_lex (a b : Str) : less a b = true ↔ List.Lex (fun x y : Char => x < y) a b := by
  induction a generalizing b with
  | nil =>
    cases b with
    | nil => simp [less, List.Lex.not_nil_right]
    | cons b t => simp [less, List.Lex.nil]
  | cons a s ih =>
    cases b with
    | nil => simp [less, List.Lex.not_nil_right]
    | cons b t =>
      rw [less]
      by_cases h1 : a < b
      · simp only [h1, if_true, true_iff]
        exact List.Lex.rel h1
      · by_cases h2 : b < a
        · simp only [h1, h2, if_true, if_false, Bool.false_eq_true, false_iff]
          intro h
          cases h with
          | cons _ => exact lt_irrefl _ h2
          | rel h3 => exact h1 h3
        · have hab : a = b := le_antisymm (not_lt.1 h2) (not_lt.1 h1)
          subst hab
          simp only [h1, if_false, ih, List.Lex.cons_iff]

theorem less_asymm (a b : Str) (h : less a b = true) : less b a = false := by
  cases hb : less b a with
  | false => rfl
  | true =>
    exact absurd ((less_iff_lex b a).1 hb)
      (asymm_of (List.Lex (fun x y : Char => x < y)) ((less_iff_lex a b).1 h))

theorem less_irrefl (a : Str) : less a a = false := by
  cases h : less a a with
  | false => rfl
  | true => have := less_asymm a a h; rw [h] at this; cases this

theorem less_of_ne (a b : Str) (h1 : less b a = false) (h2 : a ≠ b) : less a b = true := by
  rcases trichotomous_of (List.Lex (fun x y : Char => x < y)) a b with h | h | h
  · exact (less_iff_lex a b).2 h
  · exact absurd h h2
  · rw [(less_iff_lex b a).2 h] at h1; cases h1

theorem le_total_str (a b : Str) : less b a = false ∨ less a b = false := by
  cases h : less b a with
  | false => exact Or.inl rfl
  | true => exact Or.inr (less_asymm b a h)

theorem le_trans_str (a b c : Str) (h1 : less b a = false) (h2 : less c b = false) :
    less c a = false := by
  cases h : less c a with
  | false => rfl
  | true =>
    rcases IsOrderConnected.conn c b a ((less_iff_lex c a).1 h) with h3 | h3
    · rw [(less_iff_lex c b).2 h3] at h2; cases h2
    · rw [(less_iff_lex b a).2 h3] at h1; cases h1

theorem sortStrings_perm (l : List Str) : (sortStrings l).Perm l :=
  List.perm_insertionSort _ l

theorem sortStrings_sorted (l : List Str) :
    (sortStrings l).Sorted (fun a b => less b a = false) := by
  haveI : IsTotal Str (fun a b => less b a = false) := ⟨le_total_str⟩
  haveI : IsTrans Str (fun a b => less b a = false) := ⟨le_trans_str⟩
  exact List.sorted_insertionSort _ l

theorem sortStrings_strict (l : List Str) (h : l.Nodup) :
    (sortStrings l).Sorted (fun a b => less a b = true) := by
  have h1 : (sortStrings l).Pairwise (fun a b => a ≠ b) :=
    ((sortStrings_perm l).nodup_iff).2 h
  exact (List.Pairwise.and (sortStrings_sorted l) h1).imp (fun h2 => less_of_ne _ _ h2.1 h2.2)

/-! ## The claims on the feed writer -/

theorem flatMap_get (output : GoMap (List Str)) (f : Str → List Str → List Str)
    (l : List Str) :
    l.flatMap (fun val => match GoMap.get output val with
        | none => []
        | some urls => f val urls)
      = (l.filter (fun val => (GoMap.get output val).isSome)).flatMap
          (fun val => f val (GoMap.list output val)) := by
  induction l with
  | nil => rfl
  | cons a l ih =>
    rw [List.flatMap_cons, ih]
    cases h : GoMap.get output a with
    | none => simp [h]
    | some urls => simp [h, GoMap.list]

theorem feedLine_injective : Function.Injective feedLine := by
  intro a b h
  unfold feedLine at h
  exact List.append_cancel_left (List.append_cancel_right h)

theorem countP_feedLine_writeBlock (val : Str) (urls : List Str) (names : Option (GoMap Str))
    (u : Str) :
    List.countP (fun x => decide (x = feedLine u)) (writeBlock val urls names)
      = List.countP (fun x => decide (x = u)) urls := by
  have h1 : ¬ ("# ".toList ++ headerText val names ++ "\n".toList) = feedLine u := by
    intro h
    have := congrArg List.head? h
    simp [feedLine] at this
  have h2 : ¬ "# \n".toList = feedLine u := by
    intro h
    have := congrArg List.head? h
    simp [feedLine] at this
  have c1 : List.countP (fun x => decide (x = feedLine u))
      ["# ".toList ++ headerText val names ++ "\n".toList] = 0 := by
    rw [List.countP_eq_zero]
    intro x hx
    rw [List.mem_singleton.1 hx]
    simpa using h1
  have c2 : List.countP (fun x => decide (x = feedLine u)) ["# \n".toList] = 0 := by
    rw [List.countP_eq_zero]
    intro x hx
    rw [List.mem_singleton.1 hx]
    simpa using h2
  have c3 : List.countP (fun x => decide (x = feedLine u)) ((sortStrings urls).map feedLine)
      = List.countP (fun x => decide (x = u)) urls := by
    rw [List.countP_map, ← (sortStrings_perm urls).countP_eq]
    apply List.countP_congr
    intro x _
    simp only [Function.comp, decide_eq_true_eq]
    exact ⟨fun h => feedLine_injective h, fun h => by rw [h]⟩
  rw [writeBlock, List.countP_append, List.countP_append, c1, c2, c3]
  omega

theorem isSome_get_iff (output : GoMap (List Str)) (val : Str) :
    (GoMap.get output val).isSome = true ↔ val ∈ GoMap.keys output := by
  rw [← not_iff_not, ← GoMap.get_eq_none_iff]
  cases GoMap.get output val <;> simp

theorem blockKeys_perm (output : GoMap (List Str)) (walk : List Str → List Str) :
    (blockKeys output walk).Perm
      ((List.replicate output.length ([] : Str)).filter
          (fun val => (GoMap.get output val).isSome)
        ++ (walk (GoMap.keys output)).filter (fun val => (GoMap.get output val).isSome)) := by
  rw [← List.filter_append]
  exact (sortStrings_perm _).filter _

/-- When the empty string is not a key of the partition, `writeSlackFeed` writes
one block per key, in strictly ascending order of the keys. -/
theorem blockKeys_of_no_empty_key (output : GoMap (List Str)) (walk : List Str → List Str)
    (hw : (walk (GoMap.keys output)).Perm (GoMap.keys output))
    (hn : (GoMap.keys output).Nodup) (h0 : ¬ [] ∈ GoMap.keys output) :
    blockKeys output walk = sortStrings (GoMap.keys output)
    ∧ (blockKeys output walk).Perm (GoMap.keys output)
    ∧ (blockKeys output walk).Sorted (fun a b => less a b = true) := by
  have h1 : (List.replicate output.length ([] : Str)).filter
      (fun val => (GoMap.get output val).isSome) = [] := by
    rw [List.filter_eq_nil_iff]
    intro a ha
    rw [List.eq_of_mem_replicate ha, isSome_get_iff]
    exact h0
  have h2 : (walk (GoMap.keys output)).filter (fun val => (GoMap.get output val).isSome)
      = walk (GoMap.keys output) := by
    rw [List.filter_eq_self]
    intro a ha
    exact (isSome_get_iff output a).2 (hw.mem_iff.1 ha)
  have hp : (blockKeys output walk).Perm (GoMap.keys output) := by
    have := blockKeys_perm output walk
    rw [h1, h2, List.nil_append] at this
    exact this.trans hw
  have hs : (blockKeys output walk).Sorted (fun a b => less b a = false) :=
    List.Pairwise.filter _ (sortStrings_sorted _)
  haveI : IsAntisymm Str (fun a b => less b a = false) :=
    ⟨fun a b hab hba => by
      by_contra hne
      rw [less_of_ne a b hab hne] at hba
      cases hba⟩
  have heq : blockKeys output walk = sortStrings (GoMap.keys output) :=
    List.eq_of_perm_of_sorted (hp.trans (sortStrings_perm _).symm) hs (sortStrings_sorted _)
  refine ⟨heq, hp, ?_⟩
  rw [heq]
  exact sortStrings_strict _ hn

/-- When the empty string is a key of the partition, `writeSlackFeed` writes its
block once more than the partition has keys. -/
theorem count_blockKeys_empty_key (output : GoMap (List Str)) (walk : List Str → List Str)
    (hw : (walk (GoMap.keys output)).Perm (GoMap.keys output))
    (hn : (GoMap.keys output).Nodup) (h0 : [] ∈ GoMap.keys output) :
    List.countP (fun val => decide (val = [])) (blockKeys output walk)
      = output.length + 1 := by
  have h1 : (List.replicate output.length ([] : Str)).filter
      (fun val => (GoMap.get output val).isSome) = List.replicate output.length [] := by
    rw [List.filter_eq_self]
    intro a ha
    rw [List.eq_of_mem_replicate ha, isSome_get_iff]
    exact h0
  have h2 : (walk (GoMap.keys output)).filter (fun val => (GoMap.get output val).isSome)
      = walk (GoMap.keys output) := by
    rw [List.filter_eq_self]
    intro a ha
    exact (isSome_get_iff output a).2 (hw.mem_iff.1 ha)
  have hp := blockKeys_perm output walk
  rw [h1, h2] at hp
  have hc3 : List.countP (fun val => decide (val = [])) (GoMap.keys output) = 1 :=
    List.count_eq_one_of_mem hn h0
  rw [hp.countP_eq, List.countP_append, hw.countP_eq, hc3, List.countP_replicate]
  simp

theorem mem_blockKeys_iff (output : GoMap (List Str)) (walk : List Str → List Str)
    (hw : (walk (GoMap.keys output)).Perm (GoMap.keys output)) (k : Str) :
    k ∈ blockKeys output walk ↔ k ∈ GoMap.keys output := by
  rw [blockKeys, List.mem_filter, isSome_get_iff]
  constructor
  · exact fun h => h.2
  · intro h
    refine ⟨?_, h⟩
    rw [sortedKeys, (sortStrings_perm _).mem_iff, List.mem_append]
    exact Or.inr (hw.mem_iff.2 h)

theorem countP_blockKeys (output : GoMap (List Str)) (walk : List Str → List Str)
    (hw : (walk (GoMap.keys output)).Perm (GoMap.keys output))
    (hn : (GoMap.keys output).Nodup) (k : Str) (hk : k ∈ GoMap.keys output) (h0 : k ≠ []) :
    List.countP (fun val => decide (val = k)) (blockKeys output walk) = 1 := by
  have h2 : (walk (GoMap.keys output)).filter (fun val => (GoMap.get output val).isSome)
      = walk (GoMap.keys output) := by
    rw [List.filter_eq_self]
    intro a ha
    exact (isSome_get_iff output a).2 (hw.mem_iff.1 ha)
  have h1 : List.countP (fun val => decide (val = k))
      ((List.replicate output.length ([] : Str)).filter
        (fun val => (GoMap.get output val).isSome)) = 0 := by
    rw [List.countP_eq_zero]
    intro a ha
    rw [List.eq_of_mem_replicate (List.mem_filter.1 ha).1]
    simpa using h0.symm
  have hc3 : List.countP (fun val => decide (val = k)) (GoMap.keys output) = 1 :=
    List.count_eq_one_of_mem hn hk
  rw [(blockKeys_perm output walk).countP_eq, List.countP_append, h1, h2, hw.countP_eq, hc3]

theorem sum_map_eq_length {α : Type} (f : α → Nat) (l : List α) (h : ∀ x ∈ l, f x = 1) :
    (l.map f).sum = l.length := by
  induction l with
  | nil => rfl
  | cons a l ih =>
    rw [List.map_cons, List.sum_cons, h a (List.mem_cons_self a l),
      ih (fun x hx => h x (List.mem_cons_of_mem a hx)), List.length_cons]
    omega

theorem countP_newline_feedLine (u : Str) (hu : ¬ '\n' ∈ u) :
    List.countP (fun c => decide (c = '\n')) (feedLine u) = 1 := by
  have h1 : List.countP (fun c => decide (c = '\n')) u = 0 := by
    rw [List.countP_eq_zero]
    intro a ha
    simp only [decide_eq_true_eq]
    rintro rfl
    exact hu ha
  have h2 : List.countP (fun c => decide (c = '\n')) "/feed subscribe ".toList = 0 := by
    decide
  have h3 : List.countP (fun c => decide (c = '\n')) "\n".toList = 1 := by decide
  rw [feedLine, List.countP_append, List.countP_append, h1, h2, h3]

theorem countP_newline_writeBlock (val : Str) (urls : List Str) (names : Option (GoMap Str))
    (hh : ¬ '\n' ∈ headerText val names) (hu : ∀ u ∈ urls, ¬ '\n' ∈ u) :
    List.countP (fun c => decide (c = '\n')) (writeBlock val urls names).flatten
      = urls.length + 2 := by
  have h1 : List.countP (fun c => decide (c = '\n')) (headerText val names) = 0 := by
    rw [List.countP_eq_zero]
    intro a ha
    simp only [decide_eq_true_eq]
    rintro rfl
    exact hh ha
  have h2 : List.countP (fun c => decide (c = '\n')) "# ".toList = 0 := by decide
  have h3 : List.countP (fun c => decide (c = '\n')) "\n".toList = 1 := by decide
  have h4 : List.countP (fun c => decide (c = '\n')) "# \n".toList = 1 := by decide
  have h5 : (((sortStrings urls).map feedLine).map
      (List.countP (fun c => decide (c = '\n')))).sum = urls.length := by
    rw [List.map_map, sum_map_eq_length, (sortStrings_perm urls).length_eq]
    intro u hmem
    exact countP_newline_feedLine u (hu u ((sortStrings_perm urls).mem_iff.1 hmem))
  rw [List.countP_flatten, writeBlock, List.map_append, List.map_append, List.sum_append,
    List.sum_append, h5, List.map_singleton, List.map_singleton, List.sum_singleton,
    List.sum_singleton, List.countP_append, List.countP_append, h1, h2, h3, h4]
  omega

set_option maxRecDepth 100000 in
/-- C8 fails at the partition with the key `a` and the list `aba.rss`, `aba.rss`,
which `collectByService` returns for the regions `ab` and `ba`: the FeedURL has
two subscription lines in its block. It also fails at a display name with a line
break inside: the block of a key with one FeedURL then has four text lines. -/
theorem block_lines_not_one_per_feed :
    (collectByService abaIndex abaRegions ServiceWalk.plain).1
      = [("a".toList, [abaFeed, abaFeed])]
    ∧ writeSlackFeed [("a".toList, [abaFeed, abaFeed])] none (fun l => l)
      = ["# a\n".toList, feedLine abaFeed, feedLine abaFeed, "# \n".toList]
    ∧ List.countP (fun line => decide (line = feedLine abaFeed))
        (writeBlock "a".toList [abaFeed, abaFeed] none) = 2
    ∧ headerText ec2Key (some [(ec2Key, brokenName)]) = brokenName
    ∧ List.countP (fun c => decide (c = '\n'))
        (writeBlock ec2Key [ec2Feed] (some [(ec2Key, brokenName)])).flatten = 4 := by
  decide

/-- C8, amended: `writeSlackFeed` writes blocks for the keys of the partition
only, one after the other, at least one for every key and exactly one for every
key other than the empty string. The block of a key with the list `urls` is the
header `# ` with the header text, then one subscription line `/feed subscribe `
with the FeedURL for each entry of the list, a FeedURL having as many lines as it
has entries, then the separator `# `: `urls.length + 2` strings written, each
ended by a line break, which are `urls.length + 2` lines of text when neither the
header text nor a FeedURL of the list holds a line break. -/
theorem writeSlackFeed_block_shape (output : GoMap (List Str)) (names : Option (GoMap Str))
    (walk : List Str → List Str)
    (hw : (walk (GoMap.keys output)).Perm (GoMap.keys output))
    (hn : (GoMap.keys output).Nodup) :
    writeSlackFeed output names walk
      = (blockKeys output walk).flatMap
          (fun val => writeBlock val (GoMap.list output val) names)
    ∧ (∀ k, k ∈ blockKeys output walk ↔ k ∈ GoMap.keys output)
    ∧ (∀ k ∈ GoMap.keys output, k ≠ [] →
        List.countP (fun val => decide (val = k)) (blockKeys output walk) = 1)
    ∧ ∀ val urls,
        writeBlock val urls names
          = ("# ".toList ++ headerText val names ++ "\n".toList)
            :: ((sortStrings urls).map
                (fun item => "/feed subscribe ".toList ++ item ++ "\n".toList)
              ++ ["# \n".toList])
        ∧ (writeBlock val urls names).length = urls.length + 2
        ∧ (sortStrings urls).Perm urls
        ∧ (∀ u, List.countP
              (fun line => decide (line = "/feed subscribe ".toList ++ u ++ "\n".toList))
              (writeBlock val urls names)
            = List.countP (fun x => decide (x = u)) urls)
        ∧ (¬ '\n' ∈ headerText val names → (∀ u ∈ urls, ¬ '\n' ∈ u) →
            List.countP (fun c => decide (c = '\n')) (writeBlock val urls names).flatten
              = urls.length + 2) := by
  refine ⟨flatMap_get output (fun val urls => writeBlock val urls names) _,
    mem_blockKeys_iff output walk hw, countP_blockKeys output walk hw hn, fun val urls => ?_⟩
  refine ⟨rfl, ?_, sortStrings_perm urls, fun u => countP_feedLine_writeBlock val urls names u,
    countP_newline_writeBlock val urls names⟩
  simp [writeBlock, (sortStrings_perm urls).length_eq]

set_option maxRecDepth 100000 in
/-- C8, amended, at a partition with three keys, written with its keys walked in
reverse: three blocks in the order of the keys, the two feeds of `ec2-` in
ascending order. -/
theorem writeSlackFeed_block_shape_witness :
    (List.reverse (GoMap.keys fleetParts)).Perm (GoMap.keys fleetParts)
    ∧ (GoMap.keys fleetParts).Nodup
    ∧ writeSlackFeed fleetParts (some fleetNames) List.reverse
      = ["# Amazon EC2\n".toList, feedLine ec2Feed, feedLine ec2WestFeed, "# \n".toList,
         "# Global Service\n".toList, feedLine globalFeed, "# \n".toList,
         "# Amazon S3\n".toList, feedLine s3Feed, "# \n".toList]
    ∧ blockKeys fleetParts List.reverse = [ec2Key, "globalservice".toList, "s3-".toList]
    ∧ (∀ k, k ∈ blockKeys fleetParts List.reverse ↔ k ∈ GoMap.keys fleetParts)
    ∧ (∀ k ∈ GoMap.keys fleetParts, k ≠ [] →
        List.countP (fun val => decide (val = k)) (blockKeys fleetParts List.reverse) = 1)
    ∧ (writeBlock ec2Key [ec2WestFeed, ec2Feed] (some fleetNames)).length = 2 + 2 :=
  ⟨List.reverse_perm _, by decide, by decide, by decide,
    (writeSlackFeed_block_shape fleetParts (some fleetNames) List.reverse
      (List.reverse_perm _) (by decide)).2.1,
    (writeSlackFeed_block_shape fleetParts (some fleetNames) List.reverse
      (List.reverse_perm _) (by decide)).2.2.1,
    ((writeSlackFeed_block_shape fleetParts (some fleetNames) List.reverse
      (List.reverse_perm _) (by decide)).2.2.2 ec2Key [ec2WestFeed, ec2Feed]).2.1⟩

set_option maxRecDepth 100000 in
/-- C4, at a feed whose file name repeats its extension: the last path segment
is `a.rss.rss` and its extension `.rss`, and the stem `collectByService` computes
is `a`, not `a.rss`, because `strings.Replace` removes every occurrence of the
extension. The stem of `ec2-us-east-1.rss` is `ec2-us-east-1`. -/
theorem urlItem_removes_every_extension :
    Base doubledExtFeed = "a.rss.rss".toList
    ∧ Ext doubledExtFeed = ".rss".toList
    ∧ urlItem doubledExtFeed = "a".toList
    ∧ urlItem doubledExtFeed ≠ "a.rss".toList
    ∧ urlItem ec2Feed = "ec2-us-east-1".toList := by
  decide

set_option maxRecDepth 100000 in
/-- C5, at the service partition of a URLIndex whose only feed has the stem
`us-east-1`: the partition has the single key `""`, `sortedKeys` holds it beside the
empty string `make` put there, and `writeSlackFeed` writes the block of that key
twice. -/
theorem writeSlackFeed_repeats_empty_key :
    collectByService regionNamedIndex exampleRegions ServiceWalk.plain
      = ([([], [regionNamedFeed])], [([], "US East".toList)])
    ∧ sortedKeys [([], [regionNamedFeed])] (fun l => l) = [[], []]
    ∧ blockKeys [([], [regionNamedFeed])] (fun l => l) = [[], []]
    ∧ writeSlackFeed [([], [regionNamedFeed])] (some [([], "US East".toList)]) (fun l => l)
      = ["# US East\n".toList, feedLine regionNamedFeed, "# \n".toList,
         "# US East\n".toList, feedLine regionNamedFeed, "# \n".toList] := by
  decide

/-! ## FeedURLs listed twice -/

theorem nodup_list_pushAll_nil (evs : List (Str × Str)) (h : evs.Nodup) (k : Str) :
    (GoMap.list (pushAll [] evs) k).Nodup := by
  rw [list_pushAll]
  have h1 : GoMap.list ([] : GoMap (List Str)) k = [] := rfl
  rw [h1, List.nil_append]
  refine List.Nodup.map_on ?_ (h.filter _)
  intro x hx y hy hxy
  have hx1 := (List.mem_filter.1 hx).2
  have hy1 := (List.mem_filter.1 hy).2
  simp only [decide_eq_true_eq] at hx1 hy1
  exact Prod.ext (hx1.trans hy1.symm) hxy

theorem nodup_of_map_snd (evs : List (Str × Str)) (h : (evs.map Prod.snd).Nodup) :
    evs.Nodup :=
  List.Nodup.of_map Prod.snd h

theorem nodup_regionEvents (urlMap : GoMap Str) (w : RegionWalk) (hw : w.Valid)
    (hn : (GoMap.keys urlMap).Nodup) (rs : List Str) (hrs : rs.Nodup) :
    (regionEvents urlMap w rs).Nodup := by
  rw [regionEvents, List.nodup_flatMap]
  constructor
  · intro r _
    split
    · exact List.nodup_nil
    · apply nodup_of_map_snd
      rw [List.map_map]
      exact nodup_filter_map_fst _ (nodup_keys_of_perm urlMap _ (hw.2.1 r urlMap) hn) _
  · refine List.Pairwise.imp ?_ hrs
    intro r1 r2 hne
    simp only [Function.onFun]
    rw [List.disjoint_left]
    intro e h1 h2
    apply hne
    have key : ∀ r : Str, e ∈ (if GLOBAL = r then []
        else ((w.urls r urlMap).filter (fun e => ¬ LastIndex e.1 r < 0)).map
          (fun e => (r, e.1))) → e.1 = r := by
      intro r hr
      split at hr
      · cases hr
      · obtain ⟨a, _, rfl⟩ := List.mem_map.1 hr
        rfl
    exact (key r1 h1).symm.trans (key r2 h2)

theorem nodup_region_all (urlMap : GoMap Str) (regionSet : List Str) (w : RegionWalk)
    (hw : w.Valid) (hn : (GoMap.keys urlMap).Nodup) (hr : regionSet.Nodup) :
    (regionEvents urlMap w (w.regions regionSet) ++ globalEvents urlMap regionSet w).Nodup := by
  refine List.Nodup.append
    (nodup_regionEvents urlMap w hw hn _ (((hw.1 regionSet).nodup_iff).2 hr)) ?_ ?_
  · apply nodup_of_map_snd
    rw [globalEvents, List.map_map]
    exact nodup_filter_map_fst _ (nodup_keys_of_perm urlMap _ (hw.2.2 urlMap) hn) _
  · rw [List.disjoint_left]
    rintro ⟨r, u⟩ h1 h2
    exact not_mem_globalEvents urlMap regionSet w r u
      ((mem_regionEvents urlMap w _ r u).1 h1).2.1 h2

theorem nodup_stemEvents (regionSet : List Str) (w : ServiceWalk) (hw : w.Valid)
    (hr : regionSet.Nodup) (e : Str × Str)
    (hinj : ∀ r1 ∈ regionSet, ∀ r2 ∈ regionSet, r1 ≠ GLOBAL → r2 ≠ GLOBAL →
      Replace (urlItem e.1) r1 [] ≠ urlItem e.1 →
      Replace (urlItem e.1) r1 [] = Replace (urlItem e.1) r2 [] → r1 = r2) :
    (stemEvents regionSet w e).Nodup := by
  unfold stemEvents
  split
  · exact List.nodup_nil
  · refine List.Nodup.map_on ?_ ((((hw.2.1 e.1 regionSet).nodup_iff).2 hr).filter _)
    intro x hx y hy hxy
    obtain ⟨hx1, hx2⟩ := List.mem_filter.1 hx
    obtain ⟨hy1, hy2⟩ := List.mem_filter.1 hy
    simp only [decide_eq_true_eq] at hx2 hy2
    exact hinj x ((hw.2.1 e.1 regionSet).mem_iff.1 hx1) y ((hw.2.1 e.1 regionSet).mem_iff.1 hy1)
      hx2.1 hy2.1 hx2.2 (Prod.mk.inj hxy).1

theorem nodup_serviceEvents (regionSet : List Str) (w : ServiceWalk) (hw : w.Valid)
    (hr : regionSet.Nodup) (l : GoMap Str) (hl : (GoMap.keys l).Nodup)
    (hinj : ∀ e ∈ l, ∀ r1 ∈ regionSet, ∀ r2 ∈ regionSet, r1 ≠ GLOBAL → r2 ≠ GLOBAL →
      Replace (urlItem e.1) r1 [] ≠ urlItem e.1 →
      Replace (urlItem e.1) r1 [] = Replace (urlItem e.1) r2 [] → r1 = r2) :
    (serviceEvents regionSet w l).Nodup := by
  rw [serviceEvents, List.nodup_flatMap]
  constructor
  · intro e he
    exact nodup_stemEvents regionSet w hw hr e (hinj e he)
  · have hp : l.Pairwise (fun a b => a.1 ≠ b.1) := List.pairwise_map.1 hl
    refine List.Pairwise.imp ?_ hp
    intro e1 e2 hne
    simp only [Function.onFun]
    rw [List.disjoint_left]
    rintro ⟨k, x⟩ h1 h2
    exact hne (((mem_stemEvents regionSet w e1 k x).1 h1).1.trans
      ((mem_stemEvents regionSet w e2 k x).1 h2).1.symm)

theorem nodup_service_all (urlMap : GoMap Str) (regionSet : List Str) (w : ServiceWalk)
    (hw : w.Valid) (hn : (GoMap.keys urlMap).Nodup) (hr : regionSet.Nodup)
    (hinj : ∀ u ∈ GoMap.keys urlMap, ∀ r1 ∈ regionSet, ∀ r2 ∈ regionSet,
      r1 ≠ GLOBAL → r2 ≠ GLOBAL → Replace (urlItem u) r1 [] ≠ urlItem u →
      Replace (urlItem u) r1 [] = Replace (urlItem u) r2 [] → r1 = r2) :
    (serviceEvents regionSet w (w.urls urlMap) ++ restEvents urlMap regionSet w).Nodup := by
  refine List.Nodup.append ?_ ?_ ?_
  · refine nodup_serviceEvents regionSet w hw hr _
      (nodup_keys_of_perm urlMap _ (hw.1 urlMap) hn) ?_
    intro e he
    exact hinj e.1 ((mem_walk_urls urlMap _ (hw.1 urlMap) e.1).1 ⟨e, he, rfl⟩)
  · apply nodup_of_map_snd
    rw [restEvents, List.map_map]
    exact nodup_filter_map_fst _ (nodup_keys_of_perm urlMap _ (hw.2.2 urlMap) hn) _
  · rw [List.disjoint_left]
    rintro ⟨k, x⟩ h1 h2
    exact ((mem_restEvents urlMap regionSet w k x).1 h2).2.1
      ((mem_serviceLoop_used urlMap regionSet w x).2 ⟨k, h1⟩)

theorem countP_list_pushAll_nil (evs : List (Str × Str)) (k u : Str) :
    List.countP (fun x => decide (x = u)) (GoMap.list (pushAll [] evs) k)
      = List.countP (fun e => decide (e = (k, u))) evs := by
  rw [list_pushAll]
  have h1 : GoMap.list ([] : GoMap (List Str)) k = [] := rfl
  rw [h1, List.nil_append, List.countP_map, List.countP_filter]
  apply List.countP_congr
  rintro ⟨k1, u1⟩ _
  simp only [Function.comp, Bool.and_eq_true, decide_eq_true_eq, Prod.mk.injEq]
  exact ⟨fun h => ⟨h.2, h.1⟩, fun h => ⟨h.2, h.1⟩⟩

theorem replace_nil (r : Str) : Replace [] r [] = [] := by
  unfold Replace
  by_cases h : r = []
  · rw [if_pos h]
  · rw [if_neg h, if_neg h]
    rfl

theorem countP_stemEvents (regionSet : List Str) (w : ServiceWalk) (hw : w.Valid)
    (e : Str × Str) (k u : Str) :
    List.countP (fun x => decide (x = (k, u))) (stemEvents regionSet w e)
      = if e.1 = u then
          List.countP (fun r => decide (r ≠ GLOBAL ∧ Replace (urlItem u) r [] ≠ urlItem u
            ∧ Replace (urlItem u) r [] = k)) regionSet
        else 0 := by
  by_cases heu : e.1 = u
  · subst heu
    rw [if_pos rfl]
    by_cases h0 : urlItem e.1 = []
    · have hz : List.countP (fun r => decide (r ≠ GLOBAL
          ∧ Replace (urlItem e.1) r [] ≠ urlItem e.1
          ∧ Replace (urlItem e.1) r [] = k)) regionSet = 0 := by
        rw [List.countP_eq_zero]
        intro r _
        simp only [decide_eq_true_eq, not_and]
        intro _ hs
        exact absurd (by rw [h0, replace_nil]) hs
      rw [hz]
      simp [stemEvents, h0]
    · simp only [stemEvents, h0, if_false]
      rw [List.countP_map, List.countP_filter, (hw.2.1 e.1 regionSet).countP_eq]
      apply List.countP_congr
      intro r _
      simp only [Function.comp, Bool.and_eq_true, decide_eq_true_eq, Prod.mk.injEq, and_true,
        ne_eq]
      exact ⟨fun h => ⟨h.2.1, h.2.2, h.1⟩, fun h => ⟨h.2.2, h.1, h.2.1⟩⟩
  · rw [if_neg heu, List.countP_eq_zero]
    rintro ⟨k1, x⟩ hx
    simp only [decide_eq_true_eq, Prod.mk.injEq, not_and]
    intro _ hxu
    exact heu (((mem_stemEvents regionSet w e k1 x).1 hx).1.trans hxu)

theorem countP_serviceEvents (regionSet : List Str) (w : ServiceWalk) (hw : w.Valid)
    (l : GoMap Str) (hl : (GoMap.keys l).Nodup) (k u : Str) :
    List.countP (fun x => decide (x = (k, u))) (serviceEvents regionSet w l)
      = if u ∈ GoMap.keys l then
          List.countP (fun r => decide (r ≠ GLOBAL ∧ Replace (urlItem u) r [] ≠ urlItem u
            ∧ Replace (urlItem u) r [] = k)) regionSet
        else 0 := by
  induction l with
  | nil => simp [serviceEvents, GoMap.keys]
  | cons e l ih =>
    obtain ⟨k0, v0⟩ := e
    rw [GoMap.keys_cons, List.nodup_cons] at hl
    have hc : serviceEvents regionSet w ((k0, v0) :: l)
        = stemEvents regionSet w (k0, v0) ++ serviceEvents regionSet w l := by
      simp [serviceEvents]
    rw [hc, List.countP_append, countP_stemEvents regionSet w hw, ih hl.2, GoMap.keys_cons]
    by_cases h : k0 = u
    · subst h
      simp [hl.1]
    · have h2 : ¬ u = k0 := fun h3 => h h3.symm
      simp [h, h2]

theorem nodup_restEvents (urlMap : GoMap Str) (regionSet : List Str) (w : ServiceWalk)
    (hw : w.Valid) (hn : (GoMap.keys urlMap).Nodup) :
    (restEvents urlMap regionSet w).Nodup := by
  apply nodup_of_map_snd
  rw [restEvents, List.map_map]
  exact nodup_filter_map_fst _ (nodup_keys_of_perm urlMap _ (hw.2.2 urlMap) hn) _

theorem countP_of_nodup (evs : List (Str × Str)) (h : evs.Nodup) (a : Str × Str) :
    List.countP (fun x => decide (x = a)) evs = if a ∈ evs then 1 else 0 := by
  by_cases ha : a ∈ evs
  · rw [if_pos ha]
    exact List.count_eq_one_of_mem h ha
  · rw [if_neg ha, List.countP_eq_zero]
    intro x hx
    simp only [decide_eq_true_eq]
    rintro rfl
    exact ha hx

theorem mem_restEvents_iff (urlMap : GoMap Str) (regionSet : List Str) (w : ServiceWalk)
    (hw : w.Valid) (k u : Str) (hu : u ∈ GoMap.keys urlMap) :
    (k, u) ∈ restEvents urlMap regionSet w
      ↔ urlItem u ≠ [] ∧ (∀ r ∈ regionSet, r ≠ GLOBAL → Replace (urlItem u) r [] = urlItem u)
        ∧ k = urlItem u := by
  rw [mem_restEvents, mem_serviceLoop_used]
  simp only [mem_serviceEvents, mem_walk_urls urlMap _ (hw.1 urlMap) u,
    mem_walk_urls urlMap _ (hw.2.2 urlMap) u, (hw.2.1 u regionSet).mem_iff]
  constructor
  · rintro ⟨_, h2, h3, h4⟩
    refine ⟨h3, fun r hr hg => ?_, h4⟩
    by_contra hs
    exact h2 ⟨_, hu, h3, r, hr, hg, hs, rfl⟩
  · rintro ⟨h3, h2, h4⟩
    refine ⟨hu, ?_, h3, h4⟩
    rintro ⟨_, _, _, r, hr, hg, hs, _⟩
    exact hs (h2 r hr hg)

theorem countP_list_service (urlMap : GoMap Str) (regionSet : List Str) (w : ServiceWalk)
    (hw : w.Valid) (hn : (GoMap.keys urlMap).Nodup) (u : Str) (hu : u ∈ GoMap.keys urlMap)
    (k : Str) :
    List.countP (fun x => decide (x = u))
        (GoMap.list (collectByService urlMap regionSet w).1 k)
      = List.countP (fun r => decide (r ≠ GLOBAL ∧ Replace (urlItem u) r [] ≠ urlItem u
          ∧ Replace (urlItem u) r [] = k)) regionSet
        + (if urlItem u ≠ []
              ∧ (∀ r ∈ regionSet, r ≠ GLOBAL → Replace (urlItem u) r [] = urlItem u)
              ∧ k = urlItem u
            then 1 else 0) := by
  have hu2 : u ∈ GoMap.keys (w.urls urlMap) := by
    rw [mem_keys_iff]
    exact (mem_walk_urls urlMap _ (hw.1 urlMap) u).2 hu
  rw [collectByService_fst_eq, countP_list_pushAll_nil, List.countP_append,
    countP_serviceEvents regionSet w hw _ (nodup_keys_of_perm urlMap _ (hw.1 urlMap) hn),
    if_pos hu2, countP_of_nodup _ (nodup_restEvents urlMap regionSet w hw hn)]
  congr 1
  by_cases h : (k, u) ∈ restEvents urlMap regionSet w
  · rw [if_pos h, if_pos ((mem_restEvents_iff urlMap regionSet w hw k u hu).1 h)]
  · rw [if_neg h, if_neg (fun h2 => h ((mem_restEvents_iff urlMap regionSet w hw k u hu).2 h2))]

set_option maxRecDepth 100000 in
/-- C6 fails at the URLIndex with the one feed `aba.rss` and the regions `ab` and
`ba`: both reduce the stem `aba` to the key `a`, `collectByService` lists the
feed twice under it, and `writeSlackFeed` writes its line twice in the block,
which is therefore not strictly ascending. -/
theorem feed_lines_not_strictly_ascending :
    (collectByService abaIndex abaRegions ServiceWalk.plain).1
      = [("a".toList, [abaFeed, abaFeed])]
    ∧ writeSlackFeed (collectByService abaIndex abaRegions ServiceWalk.plain).1
        (some (collectByService abaIndex abaRegions ServiceWalk.plain).2) (fun l => l)
      = ["# ABA\n".toList, feedLine abaFeed, feedLine abaFeed, "# \n".toList]
    ∧ ¬ (sortStrings (GoMap.list (collectByService abaIndex abaRegions ServiceWalk.plain).1
          "a".toList)).Sorted (fun a b => less a b = true) := by
  have h1 : (collectByService abaIndex abaRegions ServiceWalk.plain).1
      = [("a".toList, [abaFeed, abaFeed])] := by decide
  refine ⟨h1, by decide, ?_⟩
  have h2 : sortStrings (GoMap.list (collectByService abaIndex abaRegions ServiceWalk.plain).1
      "a".toList) = [abaFeed, abaFeed] := by decide
  rw [h2]
  intro h
  have h3 := List.rel_of_sorted_cons h abaFeed (List.mem_singleton.2 rfl)
  rw [less_irrefl] at h3
  cases h3

/-- C6, amended: `writeSlackFeed` writes a block for every key of the partition
and for no other string, and the FeedURL lines of a block are those of the sorted
list of its key. For a partition of `collectByRegion` they are strictly ascending, so no
FeedURL occurs twice in a block. For a partition of `collectByService` they are
ascending, and the line of a FeedURL `u` of the URLIndex is written in the block
of key `k` once for every non-sentinel region of the RegionSet that, removed from
the stem of `u`, changes it and leaves `k`, or once when no region changes the
stem, the stem is not empty and `k` is the stem. So they are strictly ascending
when no two distinct non-sentinel regions, removed from the stem of one FeedURL,
change it and leave the same key. -/
theorem feed_lines_ascending (urlMap : GoMap Str) (regionSet : List Str)
    (wr : RegionWalk) (ws : ServiceWalk) (hwr : wr.Valid) (hws : ws.Valid)
    (hn : (GoMap.keys urlMap).Nodup) (hr : regionSet.Nodup)
    (walk : List Str → List Str) (hwalk : ∀ l, (walk l).Perm l) :
    (∀ names, writeSlackFeed (collectByRegion urlMap regionSet wr) names walk
        = (blockKeys (collectByRegion urlMap regionSet wr) walk).flatMap (fun val =>
            writeBlock val (GoMap.list (collectByRegion urlMap regionSet wr) val) names))
    ∧ (∀ k, k ∈ blockKeys (collectByRegion urlMap regionSet wr) walk
        ↔ k ∈ GoMap.keys (collectByRegion urlMap regionSet wr))
    ∧ (∀ names, writeSlackFeed (collectByService urlMap regionSet ws).1 names walk
        = (blockKeys (collectByService urlMap regionSet ws).1 walk).flatMap (fun val =>
            writeBlock val (GoMap.list (collectByService urlMap regionSet ws).1 val) names))
    ∧ (∀ k, k ∈ blockKeys (collectByService urlMap regionSet ws).1 walk
        ↔ k ∈ GoMap.keys (collectByService urlMap regionSet ws).1)
    ∧ (∀ val urls names, writeBlock val urls names
        = ("# ".toList ++ headerText val names ++ "\n".toList)
          :: ((sortStrings urls).map feedLine ++ ["# \n".toList]))
    ∧ (∀ k urls, GoMap.get (collectByRegion urlMap regionSet wr) k = some urls →
        (sortStrings urls).Sorted (fun a b => less a b = true))
    ∧ (∀ k urls, GoMap.get (collectByService urlMap regionSet ws).1 k = some urls →
        (sortStrings urls).Sorted (fun a b => less b a = false))
    ∧ (∀ u ∈ GoMap.keys urlMap, ∀ k names,
        List.countP (fun line => decide (line = feedLine u))
            (writeBlock k (GoMap.list (collectByService urlMap regionSet ws).1 k) names)
          = List.countP (fun r => decide (r ≠ GLOBAL ∧ Replace (urlItem u) r [] ≠ urlItem u
              ∧ Replace (urlItem u) r [] = k)) regionSet
            + (if urlItem u ≠ []
                  ∧ (∀ r ∈ regionSet, r ≠ GLOBAL → Replace (urlItem u) r [] = urlItem u)
                  ∧ k = urlItem u
                then 1 else 0))
    ∧ ((∀ u ∈ GoMap.keys urlMap, ∀ r1 ∈ regionSet, ∀ r2 ∈ regionSet,
          r1 ≠ GLOBAL → r2 ≠ GLOBAL → Replace (urlItem u) r1 [] ≠ urlItem u →
          Replace (urlItem u) r1 [] = Replace (urlItem u) r2 [] → r1 = r2) →
        ∀ k urls, GoMap.get (collectByService urlMap regionSet ws).1 k = some urls →
          (sortStrings urls).Sorted (fun a b => less a b = true)) := by
  refine ⟨fun names => flatMap_get _ (fun val urls => writeBlock val urls names) _,
    mem_blockKeys_iff _ walk (hwalk _),
    fun names => flatMap_get _ (fun val urls => writeBlock val urls names) _,
    mem_blockKeys_iff _ walk (hwalk _),
    fun _ _ _ => rfl, fun k urls h => ?_, fun k urls _ => sortStrings_sorted urls,
    fun u hu k names => ?_, fun hinj k urls h => ?_⟩
  · apply sortStrings_strict
    rw [← GoMap.list_of_get _ k urls h, collectByRegion_eq]
    exact nodup_list_pushAll_nil _ (nodup_region_all urlMap regionSet wr hwr hn hr) k
  · rw [countP_feedLine_writeBlock]
    exact countP_list_service urlMap regionSet ws hws hn u hu k
  · apply sortStrings_strict
    rw [← GoMap.list_of_get _ k urls h, collectByService_fst_eq]
    exact nodup_list_pushAll_nil _ (nodup_service_all urlMap regionSet ws hws hn hr hinj) k

set_option maxRecDepth 100000 in
/-- C6, amended, at a URLIndex with four feeds and the regions `us-east-1` and
`us-west-2`, where the lists of the keys `us-east-1` and `ec2-` have two feeds
each and are put in order by the sort, and at the URLIndex with the feed
`aba.rss` and the regions `ab` and `ba`, where the line of the feed is written
twice in the block of the key `a`. -/
theorem feed_lines_ascending_witness :
    (GoMap.keys fleetIndex).Nodup ∧ fleetRegions.Nodup
    ∧ collectByRegion fleetIndex fleetRegions RegionWalk.plain
        = [(usEast1, [ec2Feed, s3Feed]), (usWest2, [ec2WestFeed]), (GLOBAL, [globalFeed])]
    ∧ (collectByService fleetIndex fleetRegions ServiceWalk.plain).1
        = [(ec2Key, [ec2WestFeed, ec2Feed]), ("s3-".toList, [s3Feed]),
           ("globalservice".toList, [globalFeed])]
    ∧ sortStrings [ec2WestFeed, ec2Feed] = [ec2Feed, ec2WestFeed]
    ∧ writeSlackFeed (collectByRegion fleetIndex fleetRegions RegionWalk.plain) none
        List.reverse
      = ["# GLOBAL\n".toList, feedLine globalFeed, "# \n".toList,
         "# us-east-1\n".toList, feedLine ec2Feed, feedLine s3Feed, "# \n".toList,
         "# us-west-2\n".toList, feedLine ec2WestFeed, "# \n".toList]
    ∧ (∀ k, k ∈ blockKeys (collectByService fleetIndex fleetRegions ServiceWalk.plain).1
          List.reverse
        ↔ k ∈ GoMap.keys (collectByService fleetIndex fleetRegions ServiceWalk.plain).1)
    ∧ (∀ k urls, GoMap.get (collectByRegion fleetIndex fleetRegions RegionWalk.plain) k
          = some urls → (sortStrings urls).Sorted (fun a b => less a b = true))
    ∧ (∀ k urls, GoMap.get (collectByService fleetIndex fleetRegions ServiceWalk.plain).1 k
          = some urls → (sortStrings urls).Sorted (fun a b => less b a = false))
    ∧ (∀ k urls, GoMap.get (collectByService fleetIndex fleetRegions ServiceWalk.plain).1 k
          = some urls → (sortStrings urls).Sorted (fun a b => less a b = true))
    ∧ List.countP (fun line => decide (line = feedLine ec2Feed))
        (writeBlock ec2Key
          (GoMap.list (collectByService fleetIndex fleetRegions ServiceWalk.plain).1 ec2Key)
          none) = 1
    ∧ List.countP (fun line => decide (line = feedLine abaFeed))
        (writeBlock "a".toList
          (GoMap.list (collectByService abaIndex abaRegions ServiceWalk.plain).1 "a".toList)
          none) = 2 :=
  ⟨by decide, by decide, by decide, by decide, by decide, by decide,
    (feed_lines_ascending fleetIndex fleetRegions RegionWalk.plain ServiceWalk.plain
      plain_region_valid plain_service_valid (by decide) (by decide) List.reverse
      List.reverse_perm).2.2.2.1,
    (feed_lines_ascending fleetIndex fleetRegions RegionWalk.plain ServiceWalk.plain
      plain_region_valid plain_service_valid (by decide) (by decide) List.reverse
      List.reverse_perm).2.2.2.2.2.1,
    (feed_lines_ascending fleetIndex fleetRegions RegionWalk.plain ServiceWalk.plain
      plain_region_valid plain_service_valid (by decide) (by decide) List.reverse
      List.reverse_perm).2.2.2.2.2.2.1,
    (feed_lines_ascending fleetIndex fleetRegions RegionWalk.plain ServiceWalk.plain
      plain_region_valid plain_service_valid (by decide) (by decide) List.reverse
      List.reverse_perm).2.2.2.2.2.2.2.2 (by decide),
    ((feed_lines_ascending fleetIndex fleetRegions RegionWalk.plain ServiceWalk.plain
      plain_region_valid plain_service_valid (by decide) (by decide) List.reverse
      List.reverse_perm).2.2.2.2.2.2.2.1
        ec2Feed (by decide) ec2Key none).trans (by decide),
    ((feed_lines_ascending abaIndex abaRegions RegionWalk.plain ServiceWalk.plain
      plain_region_valid plain_service_valid (by decide) (by decide) List.reverse
      List.reverse_perm).2.2.2.2.2.2.2.1
        abaFeed (by decide) "a".toList none).trans (by decide)⟩

end Rssaws
